import Mathlib

/-!
A verification development for the TypeScript import checker
(`check-imports.py`).  The Python implementation works on raw file text
with a fixed set of regular expressions; here each of those concrete
regexes is transcribed as a deterministic matcher on `List Char`
(leftmost scan, maximal munch where the pattern is greedy, shortest
extension where it is lazy — for these particular patterns this agrees
with Python's backtracking engine, as argued in the comments), and the
surrounding pipeline (`extract_imports`, `find_unused_imports`,
`find_duplicate_imports`, the per-run statistics and the exit code) is
transcribed function by function.

Strings are modelled as `List Char`.  Python `\s` and `\w` are modelled
at their ASCII meaning, which covers the source-file alphabet the tool
is aimed at.
-/

/-! ### Character classes -/

/-- The single-quote character, kept as a named constant. -/
def squote : Char := Char.ofNat 39

/-- The opening-brace character. -/
def obrace : Char := Char.ofNat 123

/-- The closing-brace character. -/
def cbrace : Char := Char.ofNat 125

/-- Python `\s` (ASCII range): space, tab, newline, carriage return,
vertical tab, form feed. -/
def isWs (c : Char) : Bool :=
  c = ' ' || c = '\t' || c = '\n' || c = '\r' || c = Char.ofNat 11 || c = Char.ofNat 12

/-- Python `\w` (ASCII range): letters, digits, underscore. -/
def isWordChar (c : Char) : Bool :=
  c.isAlpha || c.isDigit || c = '_'

/-- Either quote character, the class `['\"]` of the source regexes. -/
def isQuote (c : Char) : Bool :=
  c = squote || c = '"'

/-! ### Generic list helpers -/

/-- `leadsWith pat s` holds when `pat` is a leading segment of `s`
(the literal-prefix test used all over the matchers). -/
def leadsWith : List Char → List Char → Bool
  | [], _ => true
  | _ :: _, [] => false
  | a :: as, b :: bs => a = b && leadsWith as bs

/-- Text before the first occurrence of `sep`; the whole text when
`sep` never occurs.  This is Python `s.split(sep)[0]`. -/
def splitBefore (sep : List Char) : List Char → List Char
  | [] => []
  | c :: t => if leadsWith sep (c :: t) then [] else c :: splitBefore sep t

/-- Python `s.split(',')`. -/
def splitComma : List Char → List (List Char)
  | [] => [[]]
  | c :: t =>
    if c = ',' then [] :: splitComma t
    else
      match splitComma t with
      | [] => [[c]]
      | h :: r => (c :: h) :: r

/-- Whether `sep` occurs as a contiguous segment of `l`. -/
def containsSeq (sep : List Char) : List Char → Bool
  | [] => false
  | c :: t => leadsWith sep (c :: t) || containsSeq sep t

/-- Drop leading whitespace. -/
def trimL (l : List Char) : List Char := l.dropWhile isWs

/-- Drop trailing whitespace. -/
def trimR (l : List Char) : List Char := (l.reverse.dropWhile isWs).reverse

/-- Python `s.strip()`. -/
def trimBoth (l : List Char) : List Char := trimR (trimL l)

/-! ### Tokens of the concrete regexes -/

/-- Literal `import`. -/
def litImport : List Char → Option (List Char)
  | 'i' :: 'm' :: 'p' :: 'o' :: 'r' :: 't' :: r => some r
  | _ => none

/-- Literal `from`. -/
def litFrom : List Char → Option (List Char)
  | 'f' :: 'r' :: 'o' :: 'm' :: r => some r
  | _ => none

/-- Literal `as`. -/
def litAs : List Char → Option (List Char)
  | 'a' :: 's' :: r => some r
  | _ => none

/-- `\s+` with maximal munch: at least one whitespace character, then
every following whitespace character. -/
def ws1 : List Char → Option (List Char)
  | [] => none
  | c :: t => if isWs c then some (t.dropWhile isWs) else none

/-- `(\w+)` with maximal munch: the captured word and the rest. -/
def word1 : List Char → Option (List Char × List Char)
  | [] => none
  | c :: t =>
    if isWordChar c then some (c :: t.takeWhile isWordChar, t.dropWhile isWordChar)
    else none

/-- A single `['\"]`. -/
def quoteCh : List Char → Option (List Char)
  | [] => none
  | c :: t => if isQuote c then some t else none

/-- `([^'\"]+)` with maximal munch: the captured non-quote run and the
rest (which starts with a quote or is empty). -/
def nonQuote1 (l : List Char) : Option (List Char × List Char) :=
  if (l.takeWhile (fun c => !isQuote c)).isEmpty then none
  else some (l.takeWhile (fun c => !isQuote c), l.dropWhile (fun c => !isQuote c))

/-- `;?` (greedy): drop one leading semicolon when present. -/
def dropSemi : List Char → List Char
  | [] => []
  | c :: t => if c = ';' then t else c :: t

/-! ### The four extraction patterns of `extract_imports`

Each matcher tries its regex anchored at the head of the input and
returns the captured groups together with the text after the match.
The greedy/lazy pieces of these patterns allow no real backtracking
(each quantified piece is followed by a token its character class
cannot produce), except for the `\{\s*([^}]+)\s*\}` core of the named
pattern, whose net effect after backtracking is computed explicitly in
`namedMatchAt`. -/

/-- `\s*` followed by one literal character. -/
def ws0Char (target : Char) (l : List Char) : Option (List Char) :=
  match l.dropWhile isWs with
  | [] => none
  | c :: r => if c = target then some r else none

/-- `\s*` followed by a literal token. -/
def ws0Tok (tok : List Char → Option (List Char)) (l : List Char) : Option (List Char) :=
  tok (l.dropWhile isWs)

/-- `['\"]([^'\"]+)['\"]`: a quote, the captured module specifier, a
quote; returns `(module, rest)`. -/
def moduleTail (l : List Char) : Option (List Char × List Char) :=
  (quoteCh l).bind fun r1 =>
  (nonQuote1 r1).bind fun p =>
  (quoteCh p.2).bind fun r3 =>
  some (p.1, r3)

/-- `\s*([^}]+)\s*\}` after the opening brace: requires a closing brace
with a non-empty segment before it.  After backtracking the group is the
segment minus its maximal leading whitespace run, except that a
whitespace-only segment leaves exactly its last character. -/
def bracesGroup (r3 : List Char) : Option (List Char × List Char) :=
  let seg := r3.takeWhile (fun ch => !(ch = cbrace))
  match r3.dropWhile (fun ch => !(ch = cbrace)) with
  | [] => none
  | _ :: r5 =>
    if seg.isEmpty then none
    else some ((if (seg.dropWhile isWs).isEmpty then [seg.getLastD ' ']
                else seg.dropWhile isWs), r5)

/-- `import\s*\{\s*([^}]+)\s*\}\s*from\s*['\"]([^'\"]+)['\"]` —
returns `((group1, module), rest)`. -/
def namedMatchAt (s : List Char) : Option ((List Char × List Char) × List Char) :=
  (litImport s).bind fun r1 =>
  (ws0Char obrace r1).bind fun r3 =>
  (bracesGroup r3).bind fun g =>
  (ws0Tok litFrom g.2).bind fun r7 =>
  (moduleTail (r7.dropWhile isWs)).bind fun p =>
  some ((g.1, p.1), p.2)

/-- `import\s*\*\s*as\s+(\w+)\s+from\s+['\"]([^'\"]+)['\"]` —
returns `((namespace, module), rest)`. -/
def nsMatchAt (s : List Char) : Option ((List Char × List Char) × List Char) :=
  (litImport s).bind fun r1 =>
  (ws0Char '*' r1).bind fun r3 =>
  (ws0Tok litAs r3).bind fun r4 =>
  (ws1 r4).bind fun r5 =>
  (word1 r5).bind fun nm =>
  (ws1 nm.2).bind fun r7 =>
  (litFrom r7).bind fun r8 =>
  (ws1 r8).bind fun r9 =>
  (moduleTail r9).bind fun p =>
  some ((nm.1, p.1), p.2)

/-- `import\s+(\w+)\s+from\s+['\"]([^'\"]+)['\"]` —
returns `((name, module), rest)`. -/
def defaultMatchAt (s : List Char) : Option ((List Char × List Char) × List Char) :=
  (litImport s).bind fun r1 =>
  (ws1 r1).bind fun r2 =>
  (word1 r2).bind fun nm =>
  (ws1 nm.2).bind fun r4 =>
  (litFrom r4).bind fun r5 =>
  (ws1 r5).bind fun r6 =>
  (moduleTail r6).bind fun p =>
  some ((nm.1, p.1), p.2)

/-- `import\s+['\"]([^'\"]+)['\"]` — returns `(module, rest)`. -/
def sideMatchAt (s : List Char) : Option (List Char × List Char) :=
  (litImport s).bind fun r1 =>
  (ws1 r1).bind fun r2 =>
  moduleTail r2

/-! ### The two removal patterns of `find_unused_imports` -/

/-- The deterministic tail `from\s+['\"][^'\"]+['\"];?` of the first
removal regex; returns the text after the (semicolon-extended) match. -/
def subFromTail (s : List Char) : Option (List Char) :=
  (litFrom s).bind fun r1 =>
  (ws1 r1).bind fun r2 =>
  (moduleTail r2).bind fun p =>
  some (dropSemi p.2)

/-- The lazy `.*?` scan: try `subFromTail` at the current spot, else
advance over one non-newline character (`.` never crosses a newline). -/
def lazyFrom : List Char → Option (List Char)
  | [] => none
  | c :: t =>
    match subFromTail (c :: t) with
    | some r => some r
    | none => if c = '\n' then none else lazyFrom t

/-- `import\s+.*?from\s+['\"][^'\"]+['\"];?` anchored at the head. -/
def sub1MatchAt (s : List Char) : Option (List Char) :=
  (litImport s).bind fun r1 =>
  (ws1 r1).bind fun r2 =>
  lazyFrom r2

/-- `import\s+['\"][^'\"]+['\"];?` anchored at the head. -/
def sub2MatchAt (s : List Char) : Option (List Char) :=
  (litImport s).bind fun r1 =>
  (ws1 r1).bind fun r2 =>
  (moduleTail r2).bind fun p =>
  some (dropSemi p.2)

/-! ### Scanning the whole text (finditer / re.sub) -/

/-- One step of `re.finditer`: collect the groups of every
non-overlapping match, scanning left to right.  Fuel-indexed; the fuel
`s.length` always suffices because every match consumes at least one
character. -/
def scanFindAux (f : List Char → Option (α × List Char)) : Nat → List Char → List α
  | 0, _ => []
  | Nat.succ n, s =>
    match f s with
    | some (a, r) => a :: scanFindAux f n r
    | none =>
      match s with
      | [] => []
      | _ :: t => scanFindAux f n t

/-- All matches of a pattern over a text, in scan order. -/
def scanFind (f : List Char → Option (α × List Char)) (s : List Char) : List α :=
  scanFindAux f s.length s

/-- One step of `re.sub(pat, '', text)`: remove every non-overlapping
match, keeping the unmatched characters.  Fuel-indexed like
`scanFindAux`. -/
def stripAux (f : List Char → Option (List Char)) : Nat → List Char → List Char
  | 0, s => s
  | Nat.succ n, s =>
    match f s with
    | some r => stripAux f n r
    | none =>
      match s with
      | [] => []
      | c :: t => c :: stripAux f n t

/-- `re.sub(pat, '', text)` for an anchored matcher. -/
def stripRun (f : List Char → Option (List Char)) (s : List Char) : List Char :=
  stripAux f s.length s

/-- The usage-search text of `find_unused_imports`: first remove the
`import ... from '...'` statements, then the bare `import '...'`
statements. -/
def stripImports (content : List Char) : List Char :=
  stripRun sub2MatchAt (stripRun sub1MatchAt content)

/-! ### extract_imports -/

/-- The `'__side_effect__'` sentinel. -/
def sideEffectSentinel : List Char := "__side_effect__".toList

/-- The `'* as '` marker of namespaced bindings. -/
def starAsKey : List Char := "* as ".toList

/-- The `' as '` aliasing keyword. -/
def sepAsKey : List Char := " as ".toList

/-- One comma-separated entry of a named import:
`item.strip().split(' as ')[0].strip()`. -/
def processEntry (e : List Char) : List Char :=
  trimBoth (splitBefore sepAsKey (trimBoth e))

/-- The bindings of one named-import match, from its first group. -/
def parseNamedItems (g : List Char) : List (List Char) :=
  (splitComma g).map processEntry

/-- `defaultdict(list)` update preserving key insertion order:
append `items` to the entry of `key`, creating it at the end when
absent. -/
def extendAssoc : List (List Char × List (List Char)) → List Char → List (List Char) →
    List (List Char × List (List Char))
  | [], k, its => [(k, its)]
  | (k', v) :: t, k, its =>
    if k' = k then (k', v ++ its) :: t else (k', v) :: extendAssoc t k its

/-- Ordered-dictionary lookup. -/
def assocLookup (m : List Char) : List (List Char × List (List Char)) → Option (List (List Char))
  | [] => none
  | (k, v) :: t => if k = m then some v else assocLookup m t

/-- Fold a list of `(module, bindings)` pairs into the dictionary. -/
def foldExtend (d : List (List Char × List (List Char)))
    (ps : List (List Char × List (List Char))) : List (List Char × List (List Char)) :=
  ps.foldl (fun d p => extendAssoc d p.1 p.2) d

/-- The `(module, bindings)` pairs produced by the named pattern, in
match order. -/
def namedPairs (c : List Char) : List (List Char × List (List Char)) :=
  (scanFind namedMatchAt c).map (fun p => (p.2, parseNamedItems p.1))

/-- The pairs produced by the namespace pattern: one `* as X` binding
per match. -/
def nsPairs (c : List Char) : List (List Char × List (List Char)) :=
  (scanFind nsMatchAt c).map (fun p => (p.2, [starAsKey ++ p.1]))

/-- The pairs produced by the default pattern: one binding per match. -/
def defaultPairs (c : List Char) : List (List Char × List (List Char)) :=
  (scanFind defaultMatchAt c).map (fun p => (p.2, [p.1]))

/-- The pairs produced by the side-effect pattern: one sentinel per
match. -/
def sidePairs (c : List Char) : List (List Char × List (List Char)) :=
  (scanFind sideMatchAt c).map (fun m => (m, [sideEffectSentinel]))

/-- `extract_imports`: the four patterns are applied over the whole
text one after the other, each extending the per-module binding
lists. -/
def extractImports (c : List Char) : List (List Char × List (List Char)) :=
  foldExtend (foldExtend (foldExtend (foldExtend [] (namedPairs c)) (nsPairs c))
    (defaultPairs c)) (sidePairs c)

/-! ### find_unused_imports -/

/-- `f"{item} from '{module}'"`. -/
def mkDesc (item m : List Char) : List Char :=
  item ++ (' ' :: 'f' :: 'r' :: 'o' :: 'm' :: ' ' :: squote :: (m ++ [squote]))

/-- Whether an optional character is a word character (`none` stands
for a text edge and counts as non-word, as in Python's `\b`). -/
def optWord : Option Char → Bool
  | none => false
  | some c => isWordChar c

/-- A `\b` boundary between two adjacent (optional) characters. -/
def bndB (a b : Option Char) : Bool := optWord a != optWord b

/-- The character standing just before the end of a match of `pat`
starting here: the last pattern character, or, for an empty pattern,
the character before the current position. -/
def lastOr (pat : List Char) (prev : Option Char) : Option Char :=
  match pat.getLast? with
  | some c => some c
  | none => prev

/-- Does `\b pat \b` (with `pat` taken literally) match at the current
position, `prev` being the character just before it? -/
def hereCheck (pat : List Char) (prev : Option Char) (s : List Char) : Bool :=
  leadsWith pat s && bndB prev s.head? && bndB (lastOr pat prev) (s.drop pat.length).head?

/-- `re.search` of `\b pat \b` over the remaining text. -/
def searchWordAux (pat : List Char) : Option Char → List Char → Bool
  | prev, [] => hereCheck pat prev []
  | prev, c :: t => hereCheck pat prev (c :: t) || searchWordAux pat (some c) t

/-- `re.search(rf'\b{re.escape(item)}\b', text)` as a Boolean. -/
def searchWord (pat text : List Char) : Bool :=
  searchWordAux pat none text

/-- The decision taken for one binding inside `find_unused_imports`:
skip the side-effect sentinel; for `* as X` bindings search for the
namespace name (`item.split('* as ')[1]`), otherwise for the binding
text; report the binding when the search fails. -/
def emitUnused (stripped m item : List Char) : Option (List Char) :=
  if item = sideEffectSentinel then none
  else if leadsWith starAsKey item then
    (if searchWord (splitBefore starAsKey (item.drop 5)) stripped then none
     else some (mkDesc item m))
  else (if searchWord item stripped then none else some (mkDesc item m))

/-- `find_unused_imports`: walk every binding of every module against
the usage-search text. -/
def findUnusedImports (content : List Char)
    (imports : List (List Char × List (List Char))) : List (List Char) :=
  (imports.map (fun p => p.2.filterMap (emitUnused (stripImports content) p.1))).flatten

/-! ### find_duplicate_imports -/

/-- The per-module walk of `find_duplicate_imports`: report a binding
already seen (except the sentinel), then record it as seen. -/
def dupWalk (m : List Char) : List (List Char) → List (List Char) → List (List Char)
  | _, [] => []
  | seen, item :: rest =>
    if item ∈ seen ∧ item ≠ sideEffectSentinel then
      mkDesc item m :: dupWalk m (item :: seen) rest
    else dupWalk m (item :: seen) rest

/-- `find_duplicate_imports`. -/
def findDuplicateImports (imports : List (List Char × List (List Char))) : List (List Char) :=
  (imports.map (fun p => dupWalk p.1 [] p.2)).flatten

/-! ### The per-run pipeline (`check_file`, `scan_directory`, `main`) -/

/-- Unused findings of one file. -/
def unusedOf (c : List Char) : List (List Char) :=
  findUnusedImports c (extractImports c)

/-- Duplicate findings of one file. -/
def duplicatesOf (c : List Char) : List (List Char) :=
  findDuplicateImports (extractImports c)

/-- The mutable run state: the two per-file finding lists (appended
only when non-empty, as in `check_file`) and the two running totals of
`scan_directory`. -/
structure RunResults where
  unusedEntries : List (List (List Char))
  duplicateEntries : List (List (List Char))
  totalUnused : Nat
  totalDuplicates : Nat

/-- `check_file` plus the accumulation step of `scan_directory`. -/
def processFile (r : RunResults) (c : List Char) : RunResults :=
  ⟨(if (unusedOf c).isEmpty then r.unusedEntries else r.unusedEntries ++ [unusedOf c]),
   (if (duplicatesOf c).isEmpty then r.duplicateEntries
    else r.duplicateEntries ++ [duplicatesOf c]),
   r.totalUnused + (unusedOf c).length,
   r.totalDuplicates + (duplicatesOf c).length⟩

/-- The whole scan over the files, in traversal order. -/
def runScan (files : List (List Char)) : RunResults :=
  files.foldl processFile ⟨[], [], 0, 0⟩

/-- The five summary counters of `results['stats']`. -/
structure ScanStats where
  totalFiles : Nat
  filesWithUnused : Nat
  filesWithDuplicates : Nat
  totalUnused : Nat
  totalDuplicates : Nat

/-- The `stats` record written at the end of `scan_directory`. -/
def statsOf (files : List (List Char)) : ScanStats :=
  ⟨files.length,
   ((runScan files).unusedEntries.filter (fun u => !u.isEmpty)).length,
   (runScan files).duplicateEntries.length,
   (runScan files).totalUnused,
   (runScan files).totalDuplicates⟩

/-- The process exit status chosen by `main`. -/
def exitCode (files : List (List Char)) : Nat :=
  if (statsOf files).totalUnused > 0 then 1 else 0

/-! ### Specification-side definitions (stated from the spec's words,
for comparison with the transcribed code) -/

/-- The spec's whole-word occurrence: the name occurs in the text
bounded on each side by a non-identifier character or a text edge. -/
def occursWholeWord (pat text : List Char) : Prop :=
  ∃ a b, text = a ++ pat ++ b ∧
    (∀ c, a.getLast? = some c → isWordChar c = false) ∧
    (∀ c, b.head? = some c → isWordChar c = false)

/-- All bindings a list of `(module, bindings)` pairs contributes to
one module, in pair order. -/
def phaseContrib (ps : List (List Char × List (List Char))) (m : List Char) :
    List (List Char) :=
  ((ps.filter (fun p => decide (p.1 = m))).map (fun p => p.2)).flatten

/-! ### Single-statement builders (used to state the stripping and
precedence claims) -/

/-- `import {body} from 'mod'` on one line. -/
def mkNamedStmt (body mod : List Char) : List Char :=
  'i' :: 'm' :: 'p' :: 'o' :: 'r' :: 't' :: ' ' :: obrace ::
    (body ++ (cbrace :: ' ' :: 'f' :: 'r' :: 'o' :: 'm' :: ' ' :: squote :: (mod ++ [squote])))

/-- `import name from 'mod'` on one line. -/
def mkDefaultStmt (name mod : List Char) : List Char :=
  'i' :: 'm' :: 'p' :: 'o' :: 'r' :: 't' :: ' ' ::
    (name ++ (' ' :: 'f' :: 'r' :: 'o' :: 'm' :: ' ' :: squote :: (mod ++ [squote])))

/-- `import * as ns from 'mod'` on one line. -/
def mkNsStmt (ns mod : List Char) : List Char :=
  'i' :: 'm' :: 'p' :: 'o' :: 'r' :: 't' :: ' ' :: '*' :: ' ' :: 'a' :: 's' :: ' ' ::
    (ns ++ (' ' :: 'f' :: 'r' :: 'o' :: 'm' :: ' ' :: squote :: (mod ++ [squote])))

/-- `import 'mod'`. -/
def mkSideStmt (mod : List Char) : List Char :=
  'i' :: 'm' :: 'p' :: 'o' :: 'r' :: 't' :: ' ' :: squote :: (mod ++ [squote])

/-- Generalized named single-line statement
`import<w0>\x7b<body>\x7d<w1>from<wf><q><mod><q2>`: explicit whitespace
runs and quote characters, covering every spacing the declaration grammar
admits. -/
def mkNamedStmtG (w0 body w1 wf mod : List Char) (q q2 : Char) : List Char :=
  'i' :: 'm' :: 'p' :: 'o' :: 'r' :: 't' ::
    (w0 ++ ((obrace :: (body ++ cbrace :: w1)) ++
      ('f' :: 'r' :: 'o' :: 'm' :: (wf ++ q :: (mod ++ [q2])))))

/-- Generalized namespaced single-line statement
`import<w0>*<wa>as<wb><ns><wc>from<wf><q><mod><q2>`. -/
def mkNsStmtG (w0 wa wb ns wc wf mod : List Char) (q q2 : Char) : List Char :=
  'i' :: 'm' :: 'p' :: 'o' :: 'r' :: 't' ::
    (w0 ++ (('*' :: (wa ++ 'a' :: 's' :: (wb ++ (ns ++ wc)))) ++
      ('f' :: 'r' :: 'o' :: 'm' :: (wf ++ q :: (mod ++ [q2])))))

/-- Generalized default single-line statement
`import<w0><name><w1>from<wf><q><mod><q2>`. -/
def mkDefaultStmtG (w0 name w1 wf mod : List Char) (q q2 : Char) : List Char :=
  'i' :: 'm' :: 'p' :: 'o' :: 'r' :: 't' ::
    (w0 ++ ((name ++ w1) ++
      ('f' :: 'r' :: 'o' :: 'm' :: (wf ++ q :: (mod ++ [q2])))))

/-- Generalized side-effect statement `import<w0><q><mod><q2>`. -/
def mkSideStmtG (w0 mod : List Char) (q q2 : Char) : List Char :=
  'i' :: 'm' :: 'p' :: 'o' :: 'r' :: 't' :: (w0 ++ q :: (mod ++ [q2]))

/-! ## Lemmas -/

/-! ### List helpers -/

theorem takeWhile_all_append (p : Char → Bool) (a : List Char) (c : Char) (b : List Char)
    (ha : ∀ x ∈ a, p x = true) (hc : p c = false) :
    (a ++ c :: b).takeWhile p = a := by
  induction a with
  | nil => simp [List.takeWhile_cons, hc]
  | cons x t ih =>
    have hx : p x = true := ha x (by simp)
    simp only [List.cons_append, List.takeWhile_cons, hx, if_true]
    rw [ih (fun y hy => ha y (by simp [hy]))]

theorem leadsWith_iff (p s : List Char) : leadsWith p s = true ↔ ∃ r, s = p ++ r := by
  induction p generalizing s with
  | nil => simp [leadsWith]
  | cons a as ih =>
    cases s with
    | nil => simp [leadsWith]
    | cons b bs =>
      simp only [leadsWith, Bool.and_eq_true, decide_eq_true_eq, ih]
      constructor
      · rintro ⟨rfl, r, rfl⟩; exact ⟨r, rfl⟩
      · rintro ⟨r, hr⟩
        injection hr with h1 h2
        exact ⟨h1.symm, r, h2⟩

/-! ### Description strings -/

theorem mkDesc_reverse (i m : List Char) :
    (mkDesc i m).reverse =
      squote :: (m.reverse ++ (squote :: ([' ', 'm', 'o', 'r', 'f', ' '] ++ i.reverse))) := by
  simp [mkDesc, List.append_assoc]

theorem mkDesc_inj_item {i₁ i₂ m : List Char} (h : mkDesc i₁ m = mkDesc i₂ m) : i₁ = i₂ :=
  List.append_cancel_right h

theorem mkDesc_inj {i₁ i₂ m₁ m₂ : List Char}
    (h₁ : ∀ c ∈ m₁, isQuote c = false) (h₂ : ∀ c ∈ m₂, isQuote c = false)
    (h : mkDesc i₁ m₁ = mkDesc i₂ m₂) : i₁ = i₂ ∧ m₁ = m₂ := by
  have hr := congrArg List.reverse h
  rw [mkDesc_reverse, mkDesc_reverse] at hr
  injection hr with _ hr
  have hq : ∀ (mr : List Char), (∀ c ∈ mr, isQuote c = false) → ∀ (ir : List Char),
      (mr ++ (squote :: ([' ', 'm', 'o', 'r', 'f', ' '] ++ ir))).takeWhile
        (fun c => !isQuote c) = mr := by
    intro mr hmr ir
    exact takeWhile_all_append _ _ _ _ (fun x hx => by simp [hmr x hx]) (by simp [isQuote])
  have hm : m₁.reverse = m₂.reverse := by
    have t1 := hq m₁.reverse (fun c hc => h₁ c (by simpa using hc)) i₁.reverse
    have t2 := hq m₂.reverse (fun c hc => h₂ c (by simpa using hc)) i₂.reverse
    rw [← t1, ← t2, hr]
  have hm' : m₁ = m₂ := by
    have := congrArg List.reverse hm
    simpa using this
  subst hm'
  exact ⟨mkDesc_inj_item h, rfl⟩

theorem mkDesc_ne_of_item_ne {i₁ i₂ m : List Char} (h : i₁ ≠ i₂) :
    mkDesc i₁ m ≠ mkDesc i₂ m := fun hc => h (mkDesc_inj_item hc)

/-! ### Counting duplicates -/

theorem count_dupWalk (m x : List Char) (hx : x ≠ sideEffectSentinel) :
    ∀ (items seen : List (List Char)),
      (dupWalk m seen items).count (mkDesc x m) =
        if x ∈ seen then items.count x else items.count x - 1 := by
  intro items
  induction items with
  | nil => intro seen; simp [dupWalk]
  | cons item rest ih =>
    intro seen
    by_cases hix : item = x
    · subst hix
      by_cases hseen : item ∈ seen
      · rw [dupWalk, if_pos ⟨hseen, hx⟩, List.count_cons_self, ih (item :: seen),
          if_pos (List.mem_cons_self item seen), if_pos hseen, List.count_cons_self]
      · rw [dupWalk, if_neg (fun hc => hseen hc.1), ih (item :: seen),
          if_pos (List.mem_cons_self item seen), if_neg hseen, List.count_cons_self]
        omega
    · have hne : mkDesc item m ≠ mkDesc x m := mkDesc_ne_of_item_ne hix
      have hxmem : (x ∈ item :: seen) ↔ (x ∈ seen) := by
        constructor
        · intro h
          rcases List.mem_cons.mp h with h | h
          · exact absurd h.symm hix
          · exact h
        · intro h
          exact List.mem_cons_of_mem _ h
      have hcx : (item :: rest).count x = rest.count x :=
        List.count_cons_of_ne (fun h => hix h.symm) rest
      have hw : (dupWalk m seen (item :: rest)).count (mkDesc x m) =
          (dupWalk m (item :: seen) rest).count (mkDesc x m) := by
        rw [dupWalk]
        by_cases hcond : item ∈ seen ∧ item ≠ sideEffectSentinel
        · rw [if_pos hcond, List.count_cons_of_ne (Ne.symm hne)]
        · rw [if_neg hcond]
      rw [hw, ih (item :: seen)]
      by_cases hseen : x ∈ seen
      · rw [if_pos (hxmem.mpr hseen), if_pos hseen, hcx]
      · rw [if_neg (fun hc => hseen (hxmem.mp hc)), if_neg hseen, hcx]

theorem count_dupWalk_other (m m' x : List Char) (hm : m' ≠ m)
    (h₁ : ∀ c ∈ m, isQuote c = false) (h₂ : ∀ c ∈ m', isQuote c = false) :
    ∀ (items seen : List (List Char)),
      (dupWalk m' seen items).count (mkDesc x m) = 0 := by
  intro items
  induction items with
  | nil => intro seen; simp [dupWalk]
  | cons item rest ih =>
    intro seen
    have hne : mkDesc item m' ≠ mkDesc x m := by
      intro hc
      exact hm (mkDesc_inj h₂ h₁ hc).2
    rw [dupWalk]
    by_cases hc : item ∈ seen ∧ item ≠ sideEffectSentinel
    · rw [if_pos hc]
      simp [List.count_cons, hne, ih]
    · rw [if_neg hc]
      exact ih (item :: seen)

theorem count_findDup_absent (m x : List Char)
    (h₁ : ∀ c ∈ m, isQuote c = false) :
    ∀ (imports : List (List Char × List (List Char))),
      m ∉ imports.map Prod.fst →
      (∀ p ∈ imports, ∀ c ∈ p.1, isQuote c = false) →
      (findDuplicateImports imports).count (mkDesc x m) = 0 := by
  intro imports
  induction imports with
  | nil => intro _ _; simp [findDuplicateImports]
  | cons p t ih =>
    intro habs hqf
    have hm : p.1 ≠ m := by
      intro hc; exact habs (by simp [hc])
    rw [findDuplicateImports]
    simp only [List.map_cons, List.flatten_cons, List.count_append]
    rw [count_dupWalk_other m p.1 x hm h₁ (hqf p (by simp)) p.2 []]
    have := ih (fun hc => habs (by simp [hc])) (fun q hq => hqf q (by simp [hq]))
    rw [findDuplicateImports] at this
    omega

theorem findDup_cons (p : List Char × List (List Char)) (t : List (List Char × List (List Char))) :
    findDuplicateImports (p :: t) = dupWalk p.1 [] p.2 ++ findDuplicateImports t := by
  rw [findDuplicateImports, findDuplicateImports]
  simp

theorem count_findDuplicateImports (imports : List (List Char × List (List Char)))
    (hnd : (imports.map Prod.fst).Nodup)
    (hqf : ∀ p ∈ imports, ∀ c ∈ p.1, isQuote c = false)
    {m : List Char} {items : List (List Char)} (hmem : (m, items) ∈ imports)
    (x : List Char) (hx : x ≠ sideEffectSentinel) :
    (findDuplicateImports imports).count (mkDesc x m) = items.count x - 1 := by
  induction imports with
  | nil => cases hmem
  | cons p t ih =>
    rcases p with ⟨k, v⟩
    have hk : k ∉ t.map Prod.fst := (List.nodup_cons.mp hnd).1
    rcases List.mem_cons.mp hmem with h | h
    · injection h with h1 h2
      subst h1; subst h2
      rw [findDup_cons, List.count_append,
        count_dupWalk m x hx items [], if_neg (List.not_mem_nil x),
        count_findDup_absent m x (hqf (m, items) (by simp)) t hk
          (fun q hq => hqf q (by simp [hq]))]
      omega
    · have hmapped : m ∈ t.map Prod.fst := List.mem_map_of_mem Prod.fst h
      have hkm : k ≠ m := fun hc => hk (hc ▸ hmapped)
      rw [findDup_cons, List.count_append,
        count_dupWalk_other m k x hkm (hqf (m, items) (by simp [h]))
          (hqf (k, v) (by simp)) v [],
        ih (List.nodup_cons.mp hnd).2 (fun q hq => hqf q (by simp [hq])) h]
      omega

/-! ### Counting unused findings -/

theorem emitUnused_some {stripped m item d : List Char}
    (h : emitUnused stripped m item = some d) :
    d = mkDesc item m ∧ item ≠ sideEffectSentinel := by
  unfold emitUnused at h
  split_ifs at h with h1 h2 h3 h4 <;> simp_all

theorem count_filterMap_emit (stripped m x : List Char) (hx : x ≠ sideEffectSentinel)
    (hsa : leadsWith starAsKey x = false) :
    ∀ items : List (List Char),
      (items.filterMap (emitUnused stripped m)).count (mkDesc x m) =
        if searchWord x stripped then 0 else items.count x := by
  intro items
  induction items with
  | nil => simp [List.filterMap_nil]
  | cons item rest ih =>
    rw [List.filterMap_cons]
    by_cases hix : item = x
    · subst hix
      have hemit : emitUnused stripped m item =
          if searchWord item stripped then none else some (mkDesc item m) := by
        unfold emitUnused
        rw [if_neg hx, if_neg (by simp [hsa])]
      by_cases hs : searchWord item stripped
      · have he : emitUnused stripped m item = none := by rw [hemit, if_pos hs]
        simp [he, ih, hs]
      · have he : emitUnused stripped m item = some (mkDesc item m) := by
          rw [hemit, if_neg hs]
        simp [he, ih, hs, List.count_cons_self]
    · have hcx : (item :: rest).count x = rest.count x :=
        List.count_cons_of_ne (fun h => hix h.symm) rest
      rcases hemit : emitUnused stripped m item with _ | d
      · rw [ih, hcx]
      · have hd := (emitUnused_some hemit).1
        subst hd
        rw [List.count_cons_of_ne (Ne.symm (mkDesc_ne_of_item_ne hix)), ih, hcx]

theorem count_filterMap_emit_other (stripped m m' x : List Char) (hm : m' ≠ m)
    (h₁ : ∀ c ∈ m, isQuote c = false) (h₂ : ∀ c ∈ m', isQuote c = false) :
    ∀ items : List (List Char),
      (items.filterMap (emitUnused stripped m')).count (mkDesc x m) = 0 := by
  intro items
  induction items with
  | nil => simp [List.filterMap_nil]
  | cons item rest ih =>
    rw [List.filterMap_cons]
    rcases hemit : emitUnused stripped m' item with _ | d
    · exact ih
    · have hd := (emitUnused_some hemit).1
      subst hd
      have hne : mkDesc x m ≠ mkDesc item m' := by
        intro hc
        exact hm (mkDesc_inj h₁ h₂ hc).2.symm
      rw [List.count_cons_of_ne hne, ih]

theorem findUnused_cons (content : List Char) (p : List Char × List (List Char))
    (t : List (List Char × List (List Char))) :
    findUnusedImports content (p :: t) =
      p.2.filterMap (emitUnused (stripImports content) p.1) ++ findUnusedImports content t := by
  rw [findUnusedImports, findUnusedImports]
  simp

theorem count_findUnused_absent (content m x : List Char)
    (h₁ : ∀ c ∈ m, isQuote c = false) :
    ∀ (imports : List (List Char × List (List Char))),
      m ∉ imports.map Prod.fst →
      (∀ p ∈ imports, ∀ c ∈ p.1, isQuote c = false) →
      (findUnusedImports content imports).count (mkDesc x m) = 0 := by
  intro imports
  induction imports with
  | nil => intro _ _; simp [findUnusedImports]
  | cons p t ih =>
    intro habs hqf
    have hm : p.1 ≠ m := fun hc => habs (by simp [hc])
    rw [findUnused_cons, List.count_append,
      count_filterMap_emit_other _ m p.1 x hm h₁ (hqf p (by simp)) p.2,
      ih (fun hc => habs (by simp [hc])) (fun q hq => hqf q (by simp [hq]))]

theorem count_findUnusedImports (content : List Char)
    (imports : List (List Char × List (List Char)))
    (hnd : (imports.map Prod.fst).Nodup)
    (hqf : ∀ p ∈ imports, ∀ c ∈ p.1, isQuote c = false)
    {m : List Char} {items : List (List Char)} (hmem : (m, items) ∈ imports)
    (x : List Char) (hx : x ≠ sideEffectSentinel)
    (hsa : leadsWith starAsKey x = false) :
    (findUnusedImports content imports).count (mkDesc x m) =
      if searchWord x (stripImports content) then 0 else items.count x := by
  induction imports with
  | nil => cases hmem
  | cons p t ih =>
    rcases p with ⟨k, v⟩
    have hk : k ∉ t.map Prod.fst := (List.nodup_cons.mp hnd).1
    rcases List.mem_cons.mp hmem with h | h
    · injection h with h1 h2
      subst h1; subst h2
      rw [findUnused_cons, List.count_append,
        count_filterMap_emit _ m x hx hsa items,
        count_findUnused_absent content m x (hqf (m, items) (by simp)) t hk
          (fun q hq => hqf q (by simp [hq]))]
      exact Nat.add_zero _
    · have hmapped : m ∈ t.map Prod.fst := List.mem_map_of_mem Prod.fst h
      have hkm : k ≠ m := fun hc => hk (hc ▸ hmapped)
      rw [findUnused_cons, List.count_append,
        count_filterMap_emit_other _ m k x hkm (hqf (m, items) (by simp [h]))
          (hqf (k, v) (by simp)) v,
        ih (List.nodup_cons.mp hnd).2 (fun q hq => hqf q (by simp [hq])) h]
      exact Nat.zero_add _

/-! ### The side-effect sentinel never reaches the outputs -/

theorem sentinel_not_in_unused (content : List Char)
    (imports : List (List Char × List (List Char)))
    (hqf : ∀ p ∈ imports, ∀ c ∈ p.1, isQuote c = false)
    (m' : List Char) (hm' : ∀ c ∈ m', isQuote c = false) :
    mkDesc sideEffectSentinel m' ∉ findUnusedImports content imports := by
  intro hmem
  rw [findUnusedImports] at hmem
  rcases List.mem_flatten.mp hmem with ⟨l, hl, hd⟩
  rcases List.mem_map.mp hl with ⟨p, hp, rfl⟩
  rcases List.mem_filterMap.mp hd with ⟨item, _, hemit⟩
  rcases emitUnused_some hemit with ⟨hdesc, hne⟩
  exact hne (mkDesc_inj hm' (hqf p hp) hdesc).1.symm

theorem sentinel_not_in_dupWalk (mp m' : List Char)
    (h₁ : ∀ c ∈ mp, isQuote c = false) (h₂ : ∀ c ∈ m', isQuote c = false) :
    ∀ (items seen : List (List Char)),
      mkDesc sideEffectSentinel m' ∉ dupWalk mp seen items := by
  intro items
  induction items with
  | nil => intro seen; simp [dupWalk]
  | cons item rest ih =>
    intro seen
    rw [dupWalk]
    by_cases hcond : item ∈ seen ∧ item ≠ sideEffectSentinel
    · rw [if_pos hcond]
      intro hmem
      rcases List.mem_cons.mp hmem with h | h
      · exact hcond.2 (mkDesc_inj h₂ h₁ h).1.symm
      · exact ih (item :: seen) h
    · rw [if_neg hcond]
      exact ih (item :: seen)

theorem sentinel_not_in_duplicates (imports : List (List Char × List (List Char)))
    (hqf : ∀ p ∈ imports, ∀ c ∈ p.1, isQuote c = false)
    (m' : List Char) (hm' : ∀ c ∈ m', isQuote c = false) :
    mkDesc sideEffectSentinel m' ∉ findDuplicateImports imports := by
  intro hmem
  rw [findDuplicateImports] at hmem
  rcases List.mem_flatten.mp hmem with ⟨l, hl, hd⟩
  rcases List.mem_map.mp hl with ⟨p, hp, rfl⟩
  exact sentinel_not_in_dupWalk p.1 m' (hqf p hp) hm' p.2 [] hd

/-! ### The accumulating dictionary of extract_imports -/

theorem lookup_extendAssoc (m k : List Char) (its : List (List Char)) :
    ∀ d, (assocLookup m (extendAssoc d k its)).getD [] =
      if k = m then (assocLookup m d).getD [] ++ its
      else (assocLookup m d).getD [] := by
  intro d
  induction d with
  | nil => by_cases h : k = m <;> simp [extendAssoc, assocLookup, h]
  | cons p t ih =>
    rcases p with ⟨k', v⟩
    by_cases h1 : k' = k
    · subst h1
      by_cases h2 : k' = m <;> simp [extendAssoc, assocLookup, h2]
    · by_cases h2 : k' = m
      · subst h2
        have h3 : ¬(k = k') := fun hc => h1 hc.symm
        simp [extendAssoc, assocLookup, h1, h3]
      · simp [extendAssoc, assocLookup, h1, h2, ih]

theorem phaseContrib_cons (p : List Char × List (List Char))
    (t : List (List Char × List (List Char))) (m : List Char) :
    phaseContrib (p :: t) m = (if p.1 = m then p.2 else []) ++ phaseContrib t m := by
  by_cases h : p.1 = m <;> simp [phaseContrib, List.filter_cons, h]

theorem lookup_foldExtend (m : List Char) :
    ∀ (ps : List (List Char × List (List Char))) (d : List (List Char × List (List Char))),
      (assocLookup m (foldExtend d ps)).getD [] =
        (assocLookup m d).getD [] ++ phaseContrib ps m := by
  intro ps
  induction ps with
  | nil => intro d; simp [foldExtend, phaseContrib]
  | cons p t ih =>
    intro d
    have hstep : foldExtend d (p :: t) = foldExtend (extendAssoc d p.1 p.2) t := rfl
    rw [hstep, ih, lookup_extendAssoc, phaseContrib_cons]
    by_cases h : p.1 = m <;> simp [h, List.append_assoc]

theorem keys_extendAssoc_mem (x k : List Char) (its : List (List Char)) :
    ∀ d, x ∈ (extendAssoc d k its).map Prod.fst ↔ x ∈ d.map Prod.fst ∨ x = k := by
  intro d
  induction d with
  | nil => simp [extendAssoc]
  | cons p t ih =>
    rcases p with ⟨k', v⟩
    by_cases h : k' = k
    · subst h
      simp [extendAssoc]
      tauto
    · simp [extendAssoc, h, ih]
      tauto

theorem keys_extendAssoc_nodup (k : List Char) (its : List (List Char)) :
    ∀ d, (d.map Prod.fst).Nodup → ((extendAssoc d k its).map Prod.fst).Nodup := by
  intro d
  induction d with
  | nil => intro _; simp [extendAssoc]
  | cons p t ih =>
    rcases p with ⟨k', v⟩
    intro hnd
    rcases List.nodup_cons.mp hnd with ⟨hk', ht⟩
    by_cases h : k' = k
    · subst h
      simpa [extendAssoc] using hnd
    · simp only [extendAssoc, if_neg h, List.map_cons]
      refine List.nodup_cons.mpr ⟨?_, ih ht⟩
      intro hc
      rcases (keys_extendAssoc_mem k' k its t).mp hc with hc | hc
      · exact hk' hc
      · exact h hc

theorem keys_foldExtend_mem (x : List Char) :
    ∀ (ps : List (List Char × List (List Char))) (d : List (List Char × List (List Char))),
      x ∈ (foldExtend d ps).map Prod.fst →
      x ∈ d.map Prod.fst ∨ x ∈ ps.map Prod.fst := by
  intro ps
  induction ps with
  | nil => intro d h; exact Or.inl h
  | cons p t ih =>
    intro d h
    have hstep : foldExtend d (p :: t) = foldExtend (extendAssoc d p.1 p.2) t := rfl
    rw [hstep] at h
    rcases ih (extendAssoc d p.1 p.2) h with h | h
    · rcases (keys_extendAssoc_mem x p.1 p.2 d).mp h with h | h
      · exact Or.inl h
      · right; simp [h]
    · right; simp [h]

theorem keys_foldExtend_nodup :
    ∀ (ps : List (List Char × List (List Char))) (d : List (List Char × List (List Char))),
      (d.map Prod.fst).Nodup → ((foldExtend d ps).map Prod.fst).Nodup := by
  intro ps
  induction ps with
  | nil => intro d h; exact h
  | cons p t ih =>
    intro d hnd
    exact ih (extendAssoc d p.1 p.2) (keys_extendAssoc_nodup p.1 p.2 d hnd)

/-- Keys of the extracted dictionary are pairwise distinct, as for a
Python dict. -/
theorem extractImports_keys_nodup (c : List Char) :
    ((extractImports c).map Prod.fst).Nodup := by
  unfold extractImports
  exact keys_foldExtend_nodup _ _ (keys_foldExtend_nodup _ _ (keys_foldExtend_nodup _ _
    (keys_foldExtend_nodup _ _ (by simp))))

/-! ### Extracted module specifiers contain no quote -/

theorem nonQuote1_quotefree {l g r : List Char} (h : nonQuote1 l = some (g, r)) :
    ∀ c ∈ g, isQuote c = false := by
  intro c hc
  unfold nonQuote1 at h
  split_ifs at h with h1
  rw [Option.some.injEq, Prod.mk.injEq] at h
  rw [← h.1] at hc
  have := List.mem_takeWhile_imp hc
  simpa using this

theorem moduleTail_quotefree {l m r : List Char} (h : moduleTail l = some (m, r)) :
    ∀ c ∈ m, isQuote c = false := by
  unfold moduleTail at h
  rcases Option.bind_eq_some.mp h with ⟨r1, _, h⟩
  rcases Option.bind_eq_some.mp h with ⟨p, hp, h⟩
  rcases Option.bind_eq_some.mp h with ⟨r3, _, h⟩
  injection h with h
  have hm := congrArg Prod.fst h
  simp only at hm
  rcases p with ⟨g, r2⟩
  rw [← hm]
  exact nonQuote1_quotefree hp

theorem namedMatchAt_quotefree {s : List Char} {g m r : List Char}
    (h : namedMatchAt s = some ((g, m), r)) : ∀ c ∈ m, isQuote c = false := by
  unfold namedMatchAt at h
  rcases Option.bind_eq_some.mp h with ⟨r1, _, h⟩
  rcases Option.bind_eq_some.mp h with ⟨r3, _, h⟩
  rcases Option.bind_eq_some.mp h with ⟨gg, _, h⟩
  rcases Option.bind_eq_some.mp h with ⟨r7, _, h⟩
  rcases Option.bind_eq_some.mp h with ⟨p, hp, h⟩
  injection h with h
  have hm : p.1 = m := by
    have := congrArg (fun q => q.1.2) h
    simpa using this
  rcases p with ⟨m0, rest⟩
  simp only at hm
  subst hm
  exact moduleTail_quotefree hp

theorem nsMatchAt_quotefree {s : List Char} {g m r : List Char}
    (h : nsMatchAt s = some ((g, m), r)) : ∀ c ∈ m, isQuote c = false := by
  unfold nsMatchAt at h
  rcases Option.bind_eq_some.mp h with ⟨r1, _, h⟩
  rcases Option.bind_eq_some.mp h with ⟨r3, _, h⟩
  rcases Option.bind_eq_some.mp h with ⟨r4, _, h⟩
  rcases Option.bind_eq_some.mp h with ⟨r5, _, h⟩
  rcases Option.bind_eq_some.mp h with ⟨nm, _, h⟩
  rcases Option.bind_eq_some.mp h with ⟨r7, _, h⟩
  rcases Option.bind_eq_some.mp h with ⟨r8, _, h⟩
  rcases Option.bind_eq_some.mp h with ⟨r9, _, h⟩
  rcases Option.bind_eq_some.mp h with ⟨p, hp, h⟩
  injection h with h
  have hm : p.1 = m := by
    have := congrArg (fun q => q.1.2) h
    simpa using this
  rcases p with ⟨m0, rest⟩
  simp only at hm
  subst hm
  exact moduleTail_quotefree hp

theorem defaultMatchAt_quotefree {s : List Char} {g m r : List Char}
    (h : defaultMatchAt s = some ((g, m), r)) : ∀ c ∈ m, isQuote c = false := by
  unfold defaultMatchAt at h
  rcases Option.bind_eq_some.mp h with ⟨r1, _, h⟩
  rcases Option.bind_eq_some.mp h with ⟨r2, _, h⟩
  rcases Option.bind_eq_some.mp h with ⟨nm, _, h⟩
  rcases Option.bind_eq_some.mp h with ⟨r4, _, h⟩
  rcases Option.bind_eq_some.mp h with ⟨r5, _, h⟩
  rcases Option.bind_eq_some.mp h with ⟨r6, _, h⟩
  rcases Option.bind_eq_some.mp h with ⟨p, hp, h⟩
  injection h with h
  have hm : p.1 = m := by
    have := congrArg (fun q => q.1.2) h
    simpa using this
  rcases p with ⟨m0, rest⟩
  simp only at hm
  subst hm
  exact moduleTail_quotefree hp

theorem sideMatchAt_quotefree {s : List Char} {m r : List Char}
    (h : sideMatchAt s = some (m, r)) : ∀ c ∈ m, isQuote c = false := by
  unfold sideMatchAt at h
  rcases Option.bind_eq_some.mp h with ⟨r1, _, h⟩
  rcases Option.bind_eq_some.mp h with ⟨r2, _, h⟩
  exact moduleTail_quotefree h

theorem scanFindAux_post {α : Type} (f : List Char → Option (α × List Char)) (P : α → Prop)
    (hf : ∀ s a r, f s = some (a, r) → P a) :
    ∀ (n : Nat) (s : List Char), ∀ a ∈ scanFindAux f n s, P a := by
  intro n
  induction n with
  | zero => intro s a ha; simp [scanFindAux] at ha
  | succ n ih =>
    intro s a ha
    rcases hm : f s with _ | pr
    · rcases s with _ | ⟨c, t⟩
      · simp [scanFindAux, hm] at ha
      · simp only [scanFindAux, hm] at ha
        exact ih t a ha
    · simp only [scanFindAux, hm] at ha
      rcases List.mem_cons.mp ha with h | h
      · exact h ▸ hf s pr.1 pr.2 (by rw [hm])
      · exact ih pr.2 a h

theorem scanFind_post {α : Type} (f : List Char → Option (α × List Char)) (P : α → Prop)
    (hf : ∀ s a r, f s = some (a, r) → P a) :
    ∀ (s : List Char), ∀ a ∈ scanFind f s, P a := by
  intro s
  exact scanFindAux_post f P hf s.length s

/-- Every module specifier of the extracted dictionary is quote-free:
it was captured by a `([^'\"]+)` group. -/
theorem extractImports_quotefree (c : List Char) :
    ∀ p ∈ extractImports c, ∀ ch ∈ p.1, isQuote ch = false := by
  intro p hp
  have hkey : p.1 ∈ (extractImports c).map Prod.fst := List.mem_map_of_mem Prod.fst hp
  have hnamed : ∀ q ∈ namedPairs c, ∀ ch ∈ q.1, isQuote ch = false := by
    intro q hq
    rcases List.mem_map.mp hq with ⟨pr, hpr, rfl⟩
    have := scanFind_post namedMatchAt
      (fun pr => ∀ ch ∈ pr.2, isQuote ch = false)
      (fun s a r ha => by
        rcases a with ⟨g0, m0⟩
        exact namedMatchAt_quotefree ha) c pr hpr
    simpa using this
  have hns : ∀ q ∈ nsPairs c, ∀ ch ∈ q.1, isQuote ch = false := by
    intro q hq
    rcases List.mem_map.mp hq with ⟨pr, hpr, rfl⟩
    have := scanFind_post nsMatchAt
      (fun pr => ∀ ch ∈ pr.2, isQuote ch = false)
      (fun s a r ha => by
        rcases a with ⟨g0, m0⟩
        exact nsMatchAt_quotefree ha) c pr hpr
    simpa using this
  have hdef : ∀ q ∈ defaultPairs c, ∀ ch ∈ q.1, isQuote ch = false := by
    intro q hq
    rcases List.mem_map.mp hq with ⟨pr, hpr, rfl⟩
    have := scanFind_post defaultMatchAt
      (fun pr => ∀ ch ∈ pr.2, isQuote ch = false)
      (fun s a r ha => by
        rcases a with ⟨g0, m0⟩
        exact defaultMatchAt_quotefree ha) c pr hpr
    simpa using this
  have hside : ∀ q ∈ sidePairs c, ∀ ch ∈ q.1, isQuote ch = false := by
    intro q hq
    rcases List.mem_map.mp hq with ⟨pr, hpr, rfl⟩
    have := scanFind_post sideMatchAt
      (fun mdl => ∀ ch ∈ mdl, isQuote ch = false)
      (fun s a r ha => sideMatchAt_quotefree ha) c pr hpr
    simpa using this
  have hmem := hkey
  unfold extractImports at hmem
  rcases keys_foldExtend_mem p.1 _ _ hmem with hmem | hmem
  rotate_left
  · rcases List.mem_map.mp hmem with ⟨q, hq, hq1⟩
    exact fun ch hc => hside q hq ch (hq1 ▸ hc)
  rcases keys_foldExtend_mem p.1 _ _ hmem with hmem | hmem
  rotate_left
  · rcases List.mem_map.mp hmem with ⟨q, hq, hq1⟩
    exact fun ch hc => hdef q hq ch (hq1 ▸ hc)
  rcases keys_foldExtend_mem p.1 _ _ hmem with hmem | hmem
  rotate_left
  · rcases List.mem_map.mp hmem with ⟨q, hq, hq1⟩
    exact fun ch hc => hns q hq ch (hq1 ▸ hc)
  rcases keys_foldExtend_mem p.1 _ _ hmem with hmem | hmem
  · simp at hmem
  · rcases List.mem_map.mp hmem with ⟨q, hq, hq1⟩
    exact fun ch hc => hnamed q hq ch (hq1 ▸ hc)

/-! ### Whole-word search against the spec's description -/

theorem optWord_false_iff (o : Option Char) :
    optWord o = false ↔ ∀ c, o = some c → isWordChar c = false := by
  cases o <;> simp [optWord]

theorem lastOr_none (a : List Char) : lastOr a none = a.getLast? := by
  cases h : a.getLast? <;> simp [lastOr, h]

theorem lastOr_cons (c : Char) (a : List Char) (prev : Option Char) :
    lastOr (c :: a) prev = lastOr a (some c) := by
  cases a with
  | nil => simp [lastOr]
  | cons d a' =>
    rcases h : (d :: a').getLast? with _ | lc
    · exact absurd (List.getLast?_eq_none_iff.mp h) (by simp)
    · simp [lastOr, List.getLast?_cons_cons, h]

theorem bndB_some_word (prev : Option Char) (c : Char) (hc : isWordChar c = true) :
    bndB prev (some c) = !optWord prev := by
  unfold bndB
  have h2 : optWord (some c) = true := by simp [optWord, hc]
  rw [h2]
  cases hp : optWord prev <;> simp [hp]

theorem bndB_word_some (nxt : Option Char) (c : Char) (hc : isWordChar c = true) :
    bndB (some c) nxt = !optWord nxt := by
  unfold bndB
  have h2 : optWord (some c) = true := by simp [optWord, hc]
  rw [h2]
  cases hn : optWord nxt <;> simp [hn]

theorem getLast_some_word (pat : List Char) (hne : pat ≠ [])
    (hw : ∀ c ∈ pat, isWordChar c = true) :
    ∃ lc, pat.getLast? = some lc ∧ isWordChar lc = true :=
  ⟨pat.getLast hne, List.getLast?_eq_getLast pat hne, hw _ (List.getLast_mem hne)⟩

theorem hereCheck_iff (pat : List Char) (hne : pat ≠ [])
    (hw : ∀ c ∈ pat, isWordChar c = true) (prev : Option Char) (s : List Char) :
    hereCheck pat prev s = true ↔
      ∃ b, s = pat ++ b ∧ optWord prev = false ∧ optWord b.head? = false := by
  rcases getLast_some_word pat hne hw with ⟨lc, hlc, hlcw⟩
  have hlast : lastOr pat prev = some lc := by simp [lastOr, hlc]
  constructor
  · intro h
    unfold hereCheck at h
    simp only [Bool.and_eq_true] at h
    rcases h with ⟨⟨hlead, hb1⟩, hb2⟩
    rcases (leadsWith_iff pat s).mp hlead with ⟨b, rfl⟩
    refine ⟨b, rfl, ?_, ?_⟩
    · rcases pat with _ | ⟨p₀, pt⟩
      · exact absurd rfl hne
      · have hp₀ : isWordChar p₀ = true := hw p₀ (by simp)
        have hh : ((p₀ :: pt) ++ b).head? = some p₀ := rfl
        rw [hh, bndB_some_word prev p₀ hp₀] at hb1
        simpa using hb1
    · rw [List.drop_left pat b, hlast, bndB_word_some b.head? lc hlcw] at hb2
      simpa using hb2
  · rintro ⟨b, rfl, h1, h2⟩
    unfold hereCheck
    simp only [Bool.and_eq_true]
    refine ⟨⟨(leadsWith_iff pat (pat ++ b)).mpr ⟨b, rfl⟩, ?_⟩, ?_⟩
    · rcases pat with _ | ⟨p₀, pt⟩
      · exact absurd rfl hne
      · have hp₀ : isWordChar p₀ = true := hw p₀ (by simp)
        have hh : ((p₀ :: pt) ++ b).head? = some p₀ := rfl
        rw [hh, bndB_some_word prev p₀ hp₀, h1]
        rfl
    · rw [List.drop_left pat b, hlast, bndB_word_some b.head? lc hlcw, h2]
      rfl

theorem hereCheck_nil_false (pat : List Char) (hne : pat ≠ []) (prev : Option Char) :
    hereCheck pat prev [] = false := by
  rcases pat with _ | ⟨p₀, pt⟩
  · exact absurd rfl hne
  · simp [hereCheck, leadsWith]

theorem searchWordAux_iff (pat : List Char) (hne : pat ≠ [])
    (hw : ∀ c ∈ pat, isWordChar c = true) :
    ∀ (s : List Char) (prev : Option Char),
      searchWordAux pat prev s = true ↔
        ∃ a b, s = a ++ pat ++ b ∧ optWord (lastOr a prev) = false ∧
          optWord b.head? = false := by
  intro s
  induction s with
  | nil =>
    intro prev
    rw [searchWordAux, hereCheck_nil_false pat hne prev]
    constructor
    · intro h; cases h
    · rintro ⟨a, b, hab, _, _⟩
      have := congrArg List.length hab
      rcases pat with _ | ⟨p₀, pt⟩
      · exact absurd rfl hne
      · simp at this
        omega
  | cons c t ih =>
    intro prev
    rw [searchWordAux, Bool.or_eq_true, hereCheck_iff pat hne hw prev (c :: t), ih (some c)]
    constructor
    · rintro (⟨b, hb, h1, h2⟩ | ⟨a, b, hab, h1, h2⟩)
      · exact ⟨[], b, by simpa using hb, by simpa [lastOr] using h1, h2⟩
      · refine ⟨c :: a, b, by simp [hab], ?_, h2⟩
        rw [lastOr_cons]
        exact h1
    · rintro ⟨a, b, hab, h1, h2⟩
      rcases a with _ | ⟨c₀, a'⟩
      · left
        exact ⟨b, by simpa using hab, by simpa [lastOr] using h1, h2⟩
      · right
        injection hab with hc hab
        subst hc
        refine ⟨a', b, hab, ?_, h2⟩
        rw [lastOr_cons] at h1
        exact h1

/-- For a non-empty identifier-only name, the transcribed
`re.search(\b name \b)` succeeds exactly when the spec's whole-word
occurrence holds. -/
theorem searchWord_iff_occurs (pat : List Char) (hne : pat ≠ [])
    (hw : ∀ c ∈ pat, isWordChar c = true) (text : List Char) :
    searchWord pat text = true ↔ occursWholeWord pat text := by
  unfold searchWord occursWholeWord
  rw [searchWordAux_iff pat hne hw text none]
  constructor
  · rintro ⟨a, b, hab, h1, h2⟩
    rw [lastOr_none] at h1
    exact ⟨a, b, hab, (optWord_false_iff _).mp h1, (optWord_false_iff _).mp h2⟩
  · rintro ⟨a, b, hab, h1, h2⟩
    refine ⟨a, b, hab, ?_, (optWord_false_iff _).mpr h2⟩
    rw [lastOr_none]
    exact (optWord_false_iff _).mpr h1

/-! ### Character-class facts -/

theorem isQuote_cases {c : Char} (h : isQuote c = true) : c = squote ∨ c = '"' := by
  unfold isQuote at h
  simpa using h

theorem isWs_cases {c : Char} (h : isWs c = true) :
    c = ' ' ∨ c = '\t' ∨ c = '\n' ∨ c = '\r' ∨ c = Char.ofNat 11 ∨ c = Char.ofNat 12 := by
  unfold isWs at h
  simp at h
  tauto

theorem ws_not_quote {c : Char} (h : isWs c = true) : isQuote c = false := by
  rcases isWs_cases h with h | h | h | h | h | h <;> subst h <;> decide

theorem quote_not_ws {c : Char} (h : isQuote c = true) : isWs c = false := by
  rcases isQuote_cases h with h | h <;> subst h <;> decide

theorem word_not_ws {c : Char} (h : isWordChar c = true) : isWs c = false := by
  cases hw : isWs c
  · rfl
  · rcases isWs_cases hw with h' | h' | h' | h' | h' | h' <;> subst h' <;>
      exact absurd h (by decide)

theorem word_not_quote {c : Char} (h : isWordChar c = true) : isQuote c = false := by
  cases hq : isQuote c
  · rfl
  · rcases isQuote_cases hq with h' | h' <;> subst h' <;> exact absurd h (by decide)

theorem word_ne_newline {c : Char} (h : isWordChar c = true) : c ≠ '\n' := by
  intro hc
  subst hc
  exact absurd h (by decide)

/-! ### Characterizations of the literal tokens -/

theorem litImport_eq_some {s r : List Char} (h : litImport s = some r) :
    s = 'i' :: 'm' :: 'p' :: 'o' :: 'r' :: 't' :: r := by
  unfold litImport at h
  split at h
  · injection h with h
    subst h
    rfl
  · cases h

theorem litFrom_eq_some {s r : List Char} (h : litFrom s = some r) :
    s = 'f' :: 'r' :: 'o' :: 'm' :: r := by
  unfold litFrom at h
  split at h
  · injection h with h
    subst h
    rfl
  · cases h

theorem litImport_none_of_head {c : Char} (X : List Char) (hc : c ≠ 'i') :
    litImport (c :: X) = none := by
  rcases h : litImport (c :: X) with _ | r
  · rfl
  · have := litImport_eq_some h
    injection this with h1 _
    exact absurd h1 hc

/-! ### Quote counting -/

theorem countP_takeWhile_ws (l : List Char) :
    (l.takeWhile isWs).countP isQuote = 0 := by
  rw [List.countP_eq_zero]
  intro a ha
  have := List.mem_takeWhile_imp ha
  simp [ws_not_quote this]

theorem countP_dropWhile_ws (l : List Char) :
    (l.dropWhile isWs).countP isQuote = l.countP isQuote := by
  conv_rhs => rw [← List.takeWhile_append_dropWhile isWs l]
  rw [List.countP_append, countP_takeWhile_ws]
  omega

theorem countP_takeWhile_nonquote (l : List Char) :
    (l.takeWhile (fun c => !isQuote c)).countP isQuote = 0 := by
  rw [List.countP_eq_zero]
  intro a ha
  have := List.mem_takeWhile_imp ha
  simpa using this

theorem countP_dropWhile_nonquote (l : List Char) :
    (l.dropWhile (fun c => !isQuote c)).countP isQuote = l.countP isQuote := by
  conv_rhs => rw [← List.takeWhile_append_dropWhile (fun c => !isQuote c) l]
  rw [List.countP_append, countP_takeWhile_nonquote]
  omega

theorem ws1_eq_some {l r : List Char} (h : ws1 l = some r) :
    ∃ c t, l = c :: t ∧ isWs c = true ∧ r = t.dropWhile isWs := by
  rcases l with _ | ⟨c, t⟩
  · cases h
  · simp only [ws1] at h
    split_ifs at h with hc
    injection h with h
    exact ⟨c, t, rfl, hc, h.symm⟩

theorem countQ_from (r : List Char) :
    List.countP isQuote ('f' :: 'r' :: 'o' :: 'm' :: r) = List.countP isQuote r := by
  simp [List.countP_cons, show isQuote 'f' = false from by decide,
    show isQuote 'r' = false from by decide, show isQuote 'o' = false from by decide,
    show isQuote 'm' = false from by decide]

theorem countQ_import (r : List Char) :
    List.countP isQuote ('i' :: 'm' :: 'p' :: 'o' :: 'r' :: 't' :: r) =
      List.countP isQuote r := by
  simp [List.countP_cons, show isQuote 'i' = false from by decide,
    show isQuote 'm' = false from by decide, show isQuote 'p' = false from by decide,
    show isQuote 'o' = false from by decide, show isQuote 'r' = false from by decide,
    show isQuote 't' = false from by decide]

theorem quoteCh_eq_some {l r : List Char} (h : quoteCh l = some r) :
    ∃ x, l = x :: r ∧ isQuote x = true := by
  rcases l with _ | ⟨x, t⟩
  · cases h
  · simp only [quoteCh] at h
    split_ifs at h with hx
    injection h with h
    subst h
    exact ⟨x, rfl, hx⟩

theorem nonQuote1_eq_some {l g r : List Char} (h : nonQuote1 l = some (g, r)) :
    g = l.takeWhile (fun c => !isQuote c) ∧ r = l.dropWhile (fun c => !isQuote c) := by
  unfold nonQuote1 at h
  split_ifs at h with h1
  rw [Option.some.injEq, Prod.mk.injEq] at h
  exact ⟨h.1.symm, h.2.symm⟩

theorem moduleTail_quotes {l : List Char} {p : List Char × List Char}
    (h : moduleTail l = some p) : 2 ≤ l.countP isQuote := by
  unfold moduleTail at h
  rcases Option.bind_eq_some.mp h with ⟨r1, hq1, h⟩
  rcases Option.bind_eq_some.mp h with ⟨pr, hnq, h⟩
  rcases Option.bind_eq_some.mp h with ⟨r3, hq2, _⟩
  rcases quoteCh_eq_some hq1 with ⟨x, rfl, hx⟩
  rcases quoteCh_eq_some hq2 with ⟨y, hy, hyq⟩
  have hr := (nonQuote1_eq_some (by rw [hnq] : nonQuote1 r1 = some (pr.1, pr.2))).2
  have hcount : r1.countP isQuote = pr.2.countP isQuote := by
    rw [hr, countP_dropWhile_nonquote]
  rw [List.countP_cons, hcount, hy, List.countP_cons]
  simp [hx, hyq]

theorem subFromTail_quotes {s r : List Char} (h : subFromTail s = some r) :
    2 ≤ s.countP isQuote := by
  unfold subFromTail at h
  rcases Option.bind_eq_some.mp h with ⟨r1, hlit, h⟩
  rcases Option.bind_eq_some.mp h with ⟨r2, hws, h⟩
  rcases Option.bind_eq_some.mp h with ⟨p, hmt, _⟩
  have h1 : s.countP isQuote = r1.countP isQuote := by
    rw [litFrom_eq_some hlit, countQ_from]
  have h2 : r2.countP isQuote ≤ r1.countP isQuote := by
    rcases ws1_eq_some hws with ⟨c, t, rfl, _, rfl⟩
    rw [countP_dropWhile_ws, List.countP_cons]
    omega
  have := moduleTail_quotes hmt
  omega

theorem lazyFrom_quotes {s r : List Char} (h : lazyFrom s = some r) :
    2 ≤ s.countP isQuote := by
  induction s with
  | nil => cases h
  | cons c t ih =>
    rw [lazyFrom] at h
    rcases hm : subFromTail (c :: t) with _ | r'
    · rw [hm] at h
      split_ifs at h with hc
      have := ih h
      rw [List.countP_cons]
      omega
    · exact subFromTail_quotes hm

theorem lazyFrom_none_of_quotes {s : List Char} (h : s.countP isQuote ≤ 1) :
    lazyFrom s = none := by
  rcases hl : lazyFrom s with _ | r
  · rfl
  · have := lazyFrom_quotes hl
    omega

theorem sub1MatchAt_quotes {s r : List Char} (h : sub1MatchAt s = some r) :
    2 ≤ s.countP isQuote := by
  unfold sub1MatchAt at h
  rcases Option.bind_eq_some.mp h with ⟨r1, hlit, h⟩
  rcases Option.bind_eq_some.mp h with ⟨r2, hws, h⟩
  have h1 : s.countP isQuote = r1.countP isQuote := by
    rw [litImport_eq_some hlit, countQ_import]
  have h2 : r2.countP isQuote ≤ r1.countP isQuote := by
    rcases ws1_eq_some hws with ⟨c, t, rfl, _, rfl⟩
    rw [countP_dropWhile_ws, List.countP_cons]
    omega
  have := lazyFrom_quotes h
  omega

/-! ### The lazy removal pattern on single-line statements -/

theorem subFromTail_at_from (q q' : Char) (hq1 : isQuote q = true) (hq2 : isQuote q' = true)
    (mod : List Char) (hm : mod ≠ []) (hmq : ∀ c ∈ mod, isQuote c = false) (tl : List Char) :
    subFromTail ('f' :: 'r' :: 'o' :: 'm' :: ' ' :: q :: (mod ++ q' :: tl)) =
      some (dropSemi tl) := by
  unfold subFromTail
  rw [show litFrom ('f' :: 'r' :: 'o' :: 'm' :: ' ' :: q :: (mod ++ q' :: tl)) =
      some (' ' :: q :: (mod ++ q' :: tl)) from rfl]
  simp only [Option.some_bind]
  have hws : ws1 (' ' :: q :: (mod ++ q' :: tl)) = some (q :: (mod ++ q' :: tl)) := by
    simp only [ws1, if_pos (show isWs ' ' = true from by decide)]
    simp [List.dropWhile_cons, quote_not_ws hq1]
  rw [hws]
  simp only [Option.some_bind]
  have hnq : nonQuote1 (mod ++ q' :: tl) = some (mod, q' :: tl) := by
    unfold nonQuote1
    have ht : (mod ++ q' :: tl).takeWhile (fun c => !isQuote c) = mod :=
      takeWhile_all_append _ mod q' tl (fun x hx => by simp [hmq x hx]) (by simp [hq2])
    have hd : (mod ++ q' :: tl).dropWhile (fun c => !isQuote c) = q' :: tl := by
      have happ := List.takeWhile_append_dropWhile (fun c => !isQuote c) (mod ++ q' :: tl)
      rw [ht] at happ
      exact List.append_cancel_left happ
    have hne : ¬(((mod ++ q' :: tl).takeWhile (fun c => !isQuote c)).isEmpty = true) := by
      rw [ht]
      intro hc
      exact hm (List.isEmpty_iff.mp hc)
    rw [if_neg hne, ht, hd]
  have hmt : moduleTail (q :: (mod ++ q' :: tl)) = some (mod, tl) := by
    unfold moduleTail
    rw [show quoteCh (q :: (mod ++ q' :: tl)) = some (mod ++ q' :: tl) from by
      simp [quoteCh, hq1]]
    simp only [Option.some_bind]
    rw [hnq]
    simp only [Option.some_bind]
    rw [show quoteCh (q' :: tl) = some tl from by simp [quoteCh, hq2]]
    simp only [Option.some_bind]
  rw [hmt]
  simp only [Option.some_bind]

theorem subFromTail_append_none (pre : List Char) (hne : pre ≠ [])
    (hql : ∀ c ∈ pre, isQuote c = false) (ft : List Char) :
    subFromTail (pre ++ 'f' :: ft) = none := by
  rcases hm : subFromTail (pre ++ 'f' :: ft) with _ | r
  · rfl
  exfalso
  unfold subFromTail at hm
  rcases Option.bind_eq_some.mp hm with ⟨r1, hlit, hm⟩
  rcases Option.bind_eq_some.mp hm with ⟨r2, hws, hm⟩
  rcases Option.bind_eq_some.mp hm with ⟨p, hmt, _⟩
  unfold moduleTail at hmt
  rcases Option.bind_eq_some.mp hmt with ⟨r3, hqc, _⟩
  rcases quoteCh_eq_some hqc with ⟨x, hx, hxq⟩
  have hs := litFrom_eq_some hlit
  rcases pre with _ | ⟨c1, p1⟩
  · exact hne rfl
  rcases p1 with _ | ⟨c2, p2⟩
  · simp only [List.cons_append, List.nil_append] at hs
    injection hs with h1 hs
    injection hs with h2 _
    exact absurd h2 (by decide)
  rcases p2 with _ | ⟨c3, p3⟩
  · simp only [List.cons_append, List.nil_append] at hs
    injection hs with h1 hs
    injection hs with h2 hs
    injection hs with h3 _
    exact absurd h3 (by decide)
  rcases p3 with _ | ⟨c4, p4⟩
  · simp only [List.cons_append, List.nil_append] at hs
    injection hs with h1 hs
    injection hs with h2 hs
    injection hs with h3 hs
    injection hs with h4 _
    exact absurd h4 (by decide)
  simp only [List.cons_append] at hs
  injection hs with h1 hs
  injection hs with h2 hs
  injection hs with h3 hs
  injection hs with h4 hs
  rw [← hs] at hws
  rcases ws1_eq_some hws with ⟨d, t, hdt, hd, hr2⟩
  have hp4 : ∀ c ∈ p4, isQuote c = false := fun c hc => hql c (by simp [hc])
  rcases p4 with _ | ⟨e, p5⟩
  · simp only [List.nil_append] at hdt
    injection hdt with hdf _
    rw [← hdf] at hd
    exact absurd hd (by decide)
  · simp only [List.cons_append] at hdt
    injection hdt with hde hdt
    rw [← hdt] at hr2
    rw [List.dropWhile_append] at hr2
    by_cases hemp : ((p5.dropWhile isWs).isEmpty : Bool) = true
    · rw [if_pos hemp] at hr2
      rw [List.dropWhile_cons, if_neg (by decide : ¬(isWs 'f' = true))] at hr2
      rw [hr2] at hx
      injection hx with hxe _
      rw [← hxe] at hxq
      exact absurd hxq (by decide)
    · rw [if_neg hemp] at hr2
      rcases hdw : p5.dropWhile isWs with _ | ⟨e2, es⟩
      · rw [hdw] at hemp
        exact hemp rfl
      · rw [hdw] at hr2
        rw [hr2] at hx
        simp only [List.cons_append] at hx
        injection hx with hxe _
        have he2 : e2 ∈ p5 := by
          have hsub : List.Sublist (p5.dropWhile isWs) p5 := List.dropWhile_sublist isWs
          rw [hdw] at hsub
          exact List.Sublist.mem (by simp) hsub
        have hq5 : isQuote e2 = false := hp4 e2 (by simp [he2])
        rw [← hxe] at hxq
        rw [hxq] at hq5
        cases hq5

theorem lazyFrom_master :
    ∀ (pre : List Char), (∀ c ∈ pre, isQuote c = false) → (∀ c ∈ pre, c ≠ '\n') →
      ∀ (mod : List Char), mod ≠ [] → (∀ c ∈ mod, isQuote c = false) →
      ∀ (q q' : Char), isQuote q = true → isQuote q' = true → ∀ (tl : List Char),
      lazyFrom (pre ++ 'f' :: 'r' :: 'o' :: 'm' :: ' ' :: q :: (mod ++ q' :: tl)) =
        some (dropSemi tl) := by
  intro pre
  induction pre with
  | nil =>
    intro _ _ mod hm hmq q q' hq1 hq2 tl
    rw [List.nil_append, lazyFrom, subFromTail_at_from q q' hq1 hq2 mod hm hmq tl]
  | cons c pre ih =>
    intro hq hn mod hm hmq q q' hq1 hq2 tl
    have hfail : subFromTail (c :: (pre ++ 'f' :: 'r' :: 'o' :: 'm' :: ' ' :: q ::
        (mod ++ q' :: tl))) = none := by
      have := subFromTail_append_none (c :: pre) (by simp) hq
        ('r' :: 'o' :: 'm' :: ' ' :: q :: (mod ++ q' :: tl))
      simpa using this
    rw [List.cons_append, lazyFrom, hfail,
      if_neg (show ¬(c = '\n') from hn c (by simp))]
    exact ih (fun x hx => hq x (by simp [hx])) (fun x hx => hn x (by simp [hx]))
      mod hm hmq q q' hq1 hq2 tl

theorem moduleTail_exact (q q' : Char) (hq1 : isQuote q = true) (hq2 : isQuote q' = true)
    (mod : List Char) (hm : mod ≠ []) (hmq : ∀ c ∈ mod, isQuote c = false) (tl : List Char) :
    moduleTail (q :: (mod ++ q' :: tl)) = some (mod, tl) := by
  unfold moduleTail
  rw [show quoteCh (q :: (mod ++ q' :: tl)) = some (mod ++ q' :: tl) from by
    simp [quoteCh, hq1]]
  simp only [Option.some_bind]
  have hnq : nonQuote1 (mod ++ q' :: tl) = some (mod, q' :: tl) := by
    unfold nonQuote1
    have ht : (mod ++ q' :: tl).takeWhile (fun c => !isQuote c) = mod :=
      takeWhile_all_append _ mod q' tl (fun x hx => by simp [hmq x hx]) (by simp [hq2])
    have hd : (mod ++ q' :: tl).dropWhile (fun c => !isQuote c) = q' :: tl := by
      have happ := List.takeWhile_append_dropWhile (fun c => !isQuote c) (mod ++ q' :: tl)
      rw [ht] at happ
      exact List.append_cancel_left happ
    have hne : ¬(((mod ++ q' :: tl).takeWhile (fun c => !isQuote c)).isEmpty = true) := by
      rw [ht]
      intro hc
      exact hm (List.isEmpty_iff.mp hc)
    rw [if_neg hne, ht, hd]
  rw [hnq]
  simp only [Option.some_bind]
  rw [show quoteCh (q' :: tl) = some tl from by simp [quoteCh, hq2]]
  simp only [Option.some_bind]

/-! ### The anchored removal patterns on whole single-line statements -/

theorem sub1_mkDefaultStmt (name mod : List Char) (hn : name ≠ [])
    (hw : ∀ c ∈ name, isWordChar c = true) (hm : mod ≠ [])
    (hmq : ∀ c ∈ mod, isQuote c = false) :
    sub1MatchAt (mkDefaultStmt name mod) = some [] := by
  rcases name with _ | ⟨c₀, name'⟩
  · exact absurd rfl hn
  have hc₀ : isWs c₀ = false := word_not_ws (hw c₀ (by simp))
  unfold sub1MatchAt mkDefaultStmt
  simp only [litImport, Option.some_bind]
  simp only [ws1, if_pos (show isWs ' ' = true from by decide), Option.some_bind]
  rw [show ((c₀ :: name') ++ (' ' :: 'f' :: 'r' :: 'o' :: 'm' :: ' ' :: squote ::
        (mod ++ [squote]))).dropWhile isWs =
      (c₀ :: name') ++ (' ' :: 'f' :: 'r' :: 'o' :: 'm' :: ' ' :: squote ::
        (mod ++ [squote])) from by
    simp [List.dropWhile_cons, hc₀]]
  have hshape : (c₀ :: name') ++ (' ' :: 'f' :: 'r' :: 'o' :: 'm' :: ' ' :: squote ::
        (mod ++ [squote])) =
      ((c₀ :: name') ++ [' ']) ++ ('f' :: 'r' :: 'o' :: 'm' :: ' ' :: squote ::
        (mod ++ squote :: [])) := by
    simp
  rw [hshape]
  exact lazyFrom_master ((c₀ :: name') ++ [' '])
    (fun c hc => by
      rcases List.mem_append.mp hc with hc | hc
      · exact word_not_quote (hw c hc)
      · simp at hc
        subst hc
        decide)
    (fun c hc => by
      rcases List.mem_append.mp hc with hc | hc
      · exact word_ne_newline (hw c hc)
      · simp at hc
        subst hc
        decide)
    mod hm hmq squote squote (by decide) (by decide) []

theorem sub1_mkNamedStmt (body mod : List Char)
    (hbq : ∀ c ∈ body, isQuote c = false) (hbn : ∀ c ∈ body, c ≠ '\n')
    (hm : mod ≠ []) (hmq : ∀ c ∈ mod, isQuote c = false) :
    sub1MatchAt (mkNamedStmt body mod) = some [] := by
  unfold sub1MatchAt mkNamedStmt
  simp only [litImport, Option.some_bind]
  simp only [ws1, if_pos (show isWs ' ' = true from by decide), Option.some_bind]
  rw [show (obrace :: (body ++ (cbrace :: ' ' :: 'f' :: 'r' :: 'o' :: 'm' :: ' ' :: squote ::
        (mod ++ [squote])))).dropWhile isWs =
      obrace :: (body ++ (cbrace :: ' ' :: 'f' :: 'r' :: 'o' :: 'm' :: ' ' :: squote ::
        (mod ++ [squote]))) from by
    simp [List.dropWhile_cons, show isWs obrace = false from by decide]]
  have hshape : obrace :: (body ++ (cbrace :: ' ' :: 'f' :: 'r' :: 'o' :: 'm' :: ' ' ::
        squote :: (mod ++ [squote]))) =
      ((obrace :: body) ++ [cbrace, ' ']) ++ ('f' :: 'r' :: 'o' :: 'm' :: ' ' :: squote ::
        (mod ++ squote :: [])) := by
    simp
  rw [hshape]
  exact lazyFrom_master ((obrace :: body) ++ [cbrace, ' '])
    (fun c hc => by
      rcases List.mem_append.mp hc with hc | hc
      · rcases List.mem_cons.mp hc with hc | hc
        · subst hc; decide
        · exact hbq c hc
      · rcases List.mem_cons.mp hc with hc | hc
        · subst hc; decide
        · simp at hc
          subst hc
          decide)
    (fun c hc => by
      rcases List.mem_append.mp hc with hc | hc
      · rcases List.mem_cons.mp hc with hc | hc
        · subst hc; decide
        · exact hbn c hc
      · rcases List.mem_cons.mp hc with hc | hc
        · subst hc; decide
        · simp at hc
          subst hc
          decide)
    mod hm hmq squote squote (by decide) (by decide) []

theorem sub1_mkNsStmt (ns mod : List Char) (hw : ∀ c ∈ ns, isWordChar c = true)
    (hm : mod ≠ []) (hmq : ∀ c ∈ mod, isQuote c = false) :
    sub1MatchAt (mkNsStmt ns mod) = some [] := by
  unfold sub1MatchAt mkNsStmt
  simp only [litImport, Option.some_bind]
  simp only [ws1, if_pos (show isWs ' ' = true from by decide), Option.some_bind]
  rw [show ('*' :: ' ' :: 'a' :: 's' :: ' ' :: (ns ++ (' ' :: 'f' :: 'r' :: 'o' :: 'm' ::
        ' ' :: squote :: (mod ++ [squote])))).dropWhile isWs =
      '*' :: ' ' :: 'a' :: 's' :: ' ' :: (ns ++ (' ' :: 'f' :: 'r' :: 'o' :: 'm' :: ' ' ::
        squote :: (mod ++ [squote]))) from by
    simp [List.dropWhile_cons, show isWs '*' = false from by decide]]
  have hshape : '*' :: ' ' :: 'a' :: 's' :: ' ' :: (ns ++ (' ' :: 'f' :: 'r' :: 'o' :: 'm' ::
        ' ' :: squote :: (mod ++ [squote]))) =
      (('*' :: ' ' :: 'a' :: 's' :: ' ' :: ns) ++ [' ']) ++ ('f' :: 'r' :: 'o' :: 'm' ::
        ' ' :: squote :: (mod ++ squote :: [])) := by
    simp
  rw [hshape]
  exact lazyFrom_master (('*' :: ' ' :: 'a' :: 's' :: ' ' :: ns) ++ [' '])
    (fun c hc => by
      rcases List.mem_append.mp hc with hc | hc
      · simp only [List.mem_cons] at hc
        rcases hc with hc | hc | hc | hc | hc | hc
        · subst hc; decide
        · subst hc; decide
        · subst hc; decide
        · subst hc; decide
        · subst hc; decide
        · exact word_not_quote (hw c hc)
      · simp at hc
        subst hc
        decide)
    (fun c hc => by
      rcases List.mem_append.mp hc with hc | hc
      · simp only [List.mem_cons] at hc
        rcases hc with hc | hc | hc | hc | hc | hc
        · subst hc; decide
        · subst hc; decide
        · subst hc; decide
        · subst hc; decide
        · subst hc; decide
        · exact word_ne_newline (hw c hc)
      · simp at hc
        subst hc
        decide)
    mod hm hmq squote squote (by decide) (by decide) []

theorem sub1MatchAt_none_of_quotes {s : List Char} (h : s.countP isQuote ≤ 1) :
    sub1MatchAt s = none := by
  rcases hm : sub1MatchAt s with _ | r
  · rfl
  · have := sub1MatchAt_quotes hm
    omega

theorem countP_suffix_le {s l : List Char} (h : s <:+ l) :
    s.countP isQuote ≤ l.countP isQuote := by
  rcases h with ⟨t, rfl⟩
  rw [List.countP_append]
  omega

theorem sub1MatchAt_none_of_lit {s : List Char} (h : litImport s = none) :
    sub1MatchAt s = none := by
  unfold sub1MatchAt
  rw [h]
  rfl

theorem sub1_mkSideStmt (mod : List Char) (hmq : ∀ c ∈ mod, isQuote c = false) :
    sub1MatchAt (mkSideStmt mod) = none := by
  unfold sub1MatchAt mkSideStmt
  simp only [litImport, Option.some_bind]
  simp only [ws1, if_pos (show isWs ' ' = true from by decide), Option.some_bind]
  rw [show (squote :: (mod ++ [squote])).dropWhile isWs = squote :: (mod ++ [squote]) from by
    simp [List.dropWhile_cons, show isWs squote = false from by decide]]
  have hT : subFromTail (squote :: (mod ++ [squote])) = none := by
    rcases hT : subFromTail (squote :: (mod ++ [squote])) with _ | r
    · rfl
    · exfalso
      unfold subFromTail at hT
      rcases Option.bind_eq_some.mp hT with ⟨r1, hlit, _⟩
      have := litFrom_eq_some hlit
      injection this with h1 _
      exact absurd h1 (by decide)
  rw [lazyFrom, hT, if_neg (show ¬(squote = '\n') from by decide)]
  apply lazyFrom_none_of_quotes
  rw [List.countP_append]
  have h0 : mod.countP isQuote = 0 :=
    List.countP_eq_zero.mpr (fun a ha => by simp [hmq a ha])
  simp [h0, List.countP_cons]
  decide

theorem sub1_no_match_side (mod : List Char) (hmq : ∀ c ∈ mod, isQuote c = false) :
    ∀ s', s' <:+ mkSideStmt mod → sub1MatchAt s' = none := by
  intro s' hs
  unfold mkSideStmt at hs
  rcases List.suffix_cons_iff.mp hs with rfl | hs
  · exact sub1_mkSideStmt mod hmq
  rcases List.suffix_cons_iff.mp hs with rfl | hs
  · exact sub1MatchAt_none_of_lit (litImport_none_of_head _ (by decide))
  rcases List.suffix_cons_iff.mp hs with rfl | hs
  · exact sub1MatchAt_none_of_lit (litImport_none_of_head _ (by decide))
  rcases List.suffix_cons_iff.mp hs with rfl | hs
  · exact sub1MatchAt_none_of_lit (litImport_none_of_head _ (by decide))
  rcases List.suffix_cons_iff.mp hs with rfl | hs
  · exact sub1MatchAt_none_of_lit (litImport_none_of_head _ (by decide))
  rcases List.suffix_cons_iff.mp hs with rfl | hs
  · exact sub1MatchAt_none_of_lit (litImport_none_of_head _ (by decide))
  rcases List.suffix_cons_iff.mp hs with rfl | hs
  · exact sub1MatchAt_none_of_lit (litImport_none_of_head _ (by decide))
  rcases List.suffix_cons_iff.mp hs with rfl | hs
  · exact sub1MatchAt_none_of_lit (litImport_none_of_head _ (by decide))
  apply sub1MatchAt_none_of_quotes
  have hle := countP_suffix_le hs
  have h0 : mod.countP isQuote = 0 :=
    List.countP_eq_zero.mpr (fun a ha => by simp [hmq a ha])
  rw [List.countP_append, h0, List.countP_cons] at hle
  simpa using hle

theorem sub2_mkSideStmt (mod : List Char) (hm : mod ≠ [])
    (hmq : ∀ c ∈ mod, isQuote c = false) :
    sub2MatchAt (mkSideStmt mod) = some [] := by
  unfold sub2MatchAt mkSideStmt
  simp only [litImport, Option.some_bind]
  simp only [ws1, if_pos (show isWs ' ' = true from by decide), Option.some_bind]
  rw [show (squote :: (mod ++ [squote])).dropWhile isWs = squote :: (mod ++ [squote]) from by
    simp [List.dropWhile_cons, show isWs squote = false from by decide]]
  rw [show (squote :: (mod ++ [squote])) = (squote :: (mod ++ squote :: [])) from rfl]
  rw [moduleTail_exact squote squote (by decide) (by decide) mod hm hmq []]
  simp only [Option.some_bind]
  rfl

/-! ### re.sub over whole texts -/

theorem stripAux_nil (f : List Char → Option (List Char)) (hf : f [] = none) :
    ∀ n, stripAux f n [] = [] := by
  intro n
  cases n with
  | zero => rfl
  | succ n => simp [stripAux, hf]

theorem stripRun_of_full_match (f : List Char → Option (List Char)) (s : List Char)
    (hs : f s = some []) (hnil : f [] = none) (hcons : s ≠ []) : stripRun f s = [] := by
  rcases s with _ | ⟨c, t⟩
  · exact absurd rfl hcons
  show stripAux f (t.length + 1) (c :: t) = []
  simp only [stripAux, hs]
  exact stripAux_nil f hnil t.length

theorem stripAux_id (f : List Char → Option (List Char)) :
    ∀ (n : Nat) (s : List Char), (∀ s', s' <:+ s → f s' = none) → stripAux f n s = s := by
  intro n
  induction n with
  | zero => intro s _; rfl
  | succ n ih =>
    intro s hno
    simp only [stripAux, hno s (List.suffix_refl s)]
    rcases s with _ | ⟨c, t⟩
    · rfl
    · exact congrArg (c :: ·) (ih t (fun s' h => hno s' (h.trans (List.suffix_cons c t))))

/-! ### The usage-search text of single-line statements -/

theorem stripImports_mkDefaultStmt (name mod : List Char) (hn : name ≠ [])
    (hw : ∀ c ∈ name, isWordChar c = true) (hm : mod ≠ [])
    (hmq : ∀ c ∈ mod, isQuote c = false) :
    stripImports (mkDefaultStmt name mod) = [] := by
  unfold stripImports
  rw [stripRun_of_full_match sub1MatchAt _ (sub1_mkDefaultStmt name mod hn hw hm hmq) rfl
    (by simp [mkDefaultStmt])]
  rfl

theorem stripImports_mkNamedStmt (body mod : List Char)
    (hbq : ∀ c ∈ body, isQuote c = false) (hbn : ∀ c ∈ body, c ≠ '\n')
    (hm : mod ≠ []) (hmq : ∀ c ∈ mod, isQuote c = false) :
    stripImports (mkNamedStmt body mod) = [] := by
  unfold stripImports
  rw [stripRun_of_full_match sub1MatchAt _ (sub1_mkNamedStmt body mod hbq hbn hm hmq) rfl
    (by simp [mkNamedStmt])]
  rfl

theorem stripImports_mkNsStmt (ns mod : List Char) (hw : ∀ c ∈ ns, isWordChar c = true)
    (hm : mod ≠ []) (hmq : ∀ c ∈ mod, isQuote c = false) :
    stripImports (mkNsStmt ns mod) = [] := by
  unfold stripImports
  rw [stripRun_of_full_match sub1MatchAt _ (sub1_mkNsStmt ns mod hw hm hmq) rfl
    (by simp [mkNsStmt])]
  rfl

theorem stripImports_mkSideStmt (mod : List Char) (hm : mod ≠ [])
    (hmq : ∀ c ∈ mod, isQuote c = false) :
    stripImports (mkSideStmt mod) = [] := by
  unfold stripImports
  have h1 : stripRun sub1MatchAt (mkSideStmt mod) = mkSideStmt mod :=
    stripAux_id sub1MatchAt _ _ (sub1_no_match_side mod hmq)
  rw [h1]
  exact stripRun_of_full_match sub2MatchAt _ (sub2_mkSideStmt mod hm hmq) rfl
    (by simp [mkSideStmt])

/-! ### Generalized single-line statements: arbitrary whitespace runs,
either quote style, optional trailing semicolon -/

theorem dropWhile_ws_all (w rest : List Char) (hw : ∀ c ∈ w, isWs c = true) :
    (w ++ rest).dropWhile isWs = rest.dropWhile isWs := by
  induction w with
  | nil => rfl
  | cons c t ih =>
    rw [List.cons_append, List.dropWhile_cons, if_pos (hw c (by simp))]
    exact ih (fun x hx => hw x (by simp [hx]))

theorem dropWhile_ws_mid (mid : List Char) (c : Char) (hc : isWs c = false)
    (rest : List Char) :
    (mid ++ c :: rest).dropWhile isWs = mid.dropWhile isWs ++ c :: rest := by
  rw [List.dropWhile_append]
  by_cases h : ((mid.dropWhile isWs).isEmpty : Bool) = true
  · rw [if_pos h, List.dropWhile_cons, if_neg (by simp [hc]), List.isEmpty_iff.mp h,
      List.nil_append]
  · rw [if_neg h]

theorem ws1_append (w : List Char) (hw : w ≠ []) (hwa : ∀ c ∈ w, isWs c = true)
    (rest : List Char) : ws1 (w ++ rest) = some (rest.dropWhile isWs) := by
  rcases w with _ | ⟨c, t⟩
  · exact absurd rfl hw
  rw [List.cons_append]
  simp only [ws1]
  rw [if_pos (hwa c (by simp)), dropWhile_ws_all t rest (fun x hx => hwa x (by simp [hx]))]

theorem quote_ne_i {c : Char} (h : isQuote c = true) : c ≠ 'i' := by
  intro hc
  subst hc
  exact absurd h (by decide)

theorem ws_ne_i {c : Char} (h : isWs c = true) : c ≠ 'i' := by
  intro hc
  subst hc
  exact absurd h (by decide)

theorem quote_ne_f {c : Char} (h : isQuote c = true) : c ≠ 'f' := by
  intro hc
  subst hc
  exact absurd h (by decide)

theorem quote_ne_nl {c : Char} (h : isQuote c = true) : c ≠ '\n' := by
  intro hc
  subst hc
  exact absurd h (by decide)

theorem subFromTail_at_from_gen (wf : List Char) (hwf : wf ≠ [])
    (hwfa : ∀ c ∈ wf, isWs c = true) (q q' : Char) (hq1 : isQuote q = true)
    (hq2 : isQuote q' = true) (mod : List Char) (hm : mod ≠ [])
    (hmq : ∀ c ∈ mod, isQuote c = false) (tl : List Char) :
    subFromTail ('f' :: 'r' :: 'o' :: 'm' :: (wf ++ q :: (mod ++ q' :: tl))) =
      some (dropSemi tl) := by
  unfold subFromTail
  rw [show litFrom ('f' :: 'r' :: 'o' :: 'm' :: (wf ++ q :: (mod ++ q' :: tl))) =
      some (wf ++ q :: (mod ++ q' :: tl)) from rfl]
  simp only [Option.some_bind]
  rw [ws1_append wf hwf hwfa (q :: (mod ++ q' :: tl))]
  rw [show (q :: (mod ++ q' :: tl)).dropWhile isWs = q :: (mod ++ q' :: tl) from by
    simp [List.dropWhile_cons, quote_not_ws hq1]]
  simp only [Option.some_bind]
  rw [moduleTail_exact q q' hq1 hq2 mod hm hmq tl]
  simp only [Option.some_bind]

theorem lazyFrom_master_gen :
    ∀ (pre : List Char), (∀ c ∈ pre, isQuote c = false) → (∀ c ∈ pre, c ≠ '\n') →
      ∀ (wf : List Char), wf ≠ [] → (∀ c ∈ wf, isWs c = true) →
      ∀ (mod : List Char), mod ≠ [] → (∀ c ∈ mod, isQuote c = false) →
      ∀ (q q' : Char), isQuote q = true → isQuote q' = true → ∀ (tl : List Char),
      lazyFrom (pre ++ 'f' :: 'r' :: 'o' :: 'm' :: (wf ++ q :: (mod ++ q' :: tl))) =
        some (dropSemi tl) := by
  intro pre
  induction pre with
  | nil =>
    intro _ _ wf hwf hwfa mod hm hmq q q' hq1 hq2 tl
    rw [List.nil_append, lazyFrom,
      subFromTail_at_from_gen wf hwf hwfa q q' hq1 hq2 mod hm hmq tl]
  | cons c pre ih =>
    intro hq hn wf hwf hwfa mod hm hmq q q' hq1 hq2 tl
    have hfail : subFromTail (c :: (pre ++ 'f' :: 'r' :: 'o' :: 'm' ::
        (wf ++ q :: (mod ++ q' :: tl)))) = none := by
      have := subFromTail_append_none (c :: pre) (by simp) hq
        ('r' :: 'o' :: 'm' :: (wf ++ q :: (mod ++ q' :: tl)))
      simpa using this
    rw [List.cons_append, lazyFrom, hfail,
      if_neg (show ¬(c = '\n') from hn c (by simp))]
    exact ih (fun x hx => hq x (by simp [hx])) (fun x hx => hn x (by simp [hx]))
      wf hwf hwfa mod hm hmq q q' hq1 hq2 tl

theorem sub1_strip_general (w mid wf mod : List Char) (q q' : Char) (tl : List Char)
    (hw : w ≠ []) (hwa : ∀ c ∈ w, isWs c = true)
    (hmidq : ∀ c ∈ mid, isQuote c = false) (hmidn : ∀ c ∈ mid, c ≠ '\n')
    (hwf : wf ≠ []) (hwfa : ∀ c ∈ wf, isWs c = true)
    (hm : mod ≠ []) (hmq : ∀ c ∈ mod, isQuote c = false)
    (hq1 : isQuote q = true) (hq2 : isQuote q' = true) :
    sub1MatchAt ('i' :: 'm' :: 'p' :: 'o' :: 'r' :: 't' ::
        (w ++ (mid ++ 'f' :: 'r' :: 'o' :: 'm' :: (wf ++ q :: (mod ++ q' :: tl))))) =
      some (dropSemi tl) := by
  unfold sub1MatchAt
  simp only [litImport, Option.some_bind]
  rw [ws1_append w hw hwa
    (mid ++ 'f' :: 'r' :: 'o' :: 'm' :: (wf ++ q :: (mod ++ q' :: tl)))]
  simp only [Option.some_bind]
  rw [dropWhile_ws_mid mid 'f' (by decide)
    ('r' :: 'o' :: 'm' :: (wf ++ q :: (mod ++ q' :: tl)))]
  have hsub : List.Sublist (mid.dropWhile isWs) mid := List.dropWhile_sublist isWs
  exact lazyFrom_master_gen (mid.dropWhile isWs)
    (fun c hc => hmidq c (List.Sublist.mem hc hsub))
    (fun c hc => hmidn c (List.Sublist.mem hc hsub))
    wf hwf hwfa mod hm hmq q q' hq1 hq2 tl

theorem sub2_gen (w mod : List Char) (q q' : Char) (tl : List Char)
    (hw : w ≠ []) (hwa : ∀ c ∈ w, isWs c = true)
    (hm : mod ≠ []) (hmq : ∀ c ∈ mod, isQuote c = false)
    (hq1 : isQuote q = true) (hq2 : isQuote q' = true) :
    sub2MatchAt ('i' :: 'm' :: 'p' :: 'o' :: 'r' :: 't' ::
        (w ++ q :: (mod ++ q' :: tl))) = some (dropSemi tl) := by
  unfold sub2MatchAt
  simp only [litImport, Option.some_bind]
  rw [ws1_append w hw hwa (q :: (mod ++ q' :: tl))]
  rw [show (q :: (mod ++ q' :: tl)).dropWhile isWs = q :: (mod ++ q' :: tl) from by
    simp [List.dropWhile_cons, quote_not_ws hq1]]
  simp only [Option.some_bind]
  rw [moduleTail_exact q q' hq1 hq2 mod hm hmq tl]
  simp only [Option.some_bind]

theorem sub1_none_side_suffix (w mod semi : List Char) (q q' : Char)
    (hw : w ≠ []) (hwa : ∀ c ∈ w, isWs c = true)
    (hmq : ∀ c ∈ mod, isQuote c = false) (hsq : ∀ c ∈ semi, isQuote c = false)
    (hq1 : isQuote q = true) (hq2 : isQuote q' = true) :
    ∀ s', s' <:+ ('i' :: 'm' :: 'p' :: 'o' :: 'r' :: 't' ::
        (w ++ q :: (mod ++ q' :: semi))) → sub1MatchAt s' = none := by
  have hcount : (mod ++ q' :: semi).countP isQuote ≤ 1 := by
    rw [List.countP_append, List.countP_cons]
    have h0 : mod.countP isQuote = 0 :=
      List.countP_eq_zero.mpr (fun a ha => by simp [hmq a ha])
    have h1 : semi.countP isQuote = 0 :=
      List.countP_eq_zero.mpr (fun a ha => by simp [hsq a ha])
    rw [h0, h1, if_pos hq2]
  have hfull : sub1MatchAt ('i' :: 'm' :: 'p' :: 'o' :: 'r' :: 't' ::
      (w ++ q :: (mod ++ q' :: semi))) = none := by
    unfold sub1MatchAt
    simp only [litImport, Option.some_bind]
    rw [ws1_append w hw hwa (q :: (mod ++ q' :: semi))]
    rw [show (q :: (mod ++ q' :: semi)).dropWhile isWs = q :: (mod ++ q' :: semi) from by
      simp [List.dropWhile_cons, quote_not_ws hq1]]
    simp only [Option.some_bind]
    have hsf : subFromTail (q :: (mod ++ q' :: semi)) = none := by
      rcases hT : subFromTail (q :: (mod ++ q' :: semi)) with _ | r
      · rfl
      · exfalso
        unfold subFromTail at hT
        rcases Option.bind_eq_some.mp hT with ⟨r1, hlit, _⟩
        have hsh := litFrom_eq_some hlit
        injection hsh with h1 _
        exact absurd h1 (quote_ne_f hq1)
    rw [lazyFrom, hsf, if_neg (show ¬(q = '\n') from quote_ne_nl hq1)]
    exact lazyFrom_none_of_quotes hcount
  have hrest : ∀ (w' : List Char), (∀ c ∈ w', isWs c = true) →
      ∀ s', s' <:+ (w' ++ q :: (mod ++ q' :: semi)) → sub1MatchAt s' = none := by
    intro w'
    induction w' with
    | nil =>
      intro _ s' hs
      rw [List.nil_append] at hs
      rcases List.suffix_cons_iff.mp hs with rfl | hs
      · exact sub1MatchAt_none_of_lit (litImport_none_of_head _ (quote_ne_i hq1))
      · exact sub1MatchAt_none_of_quotes (Nat.le_trans (countP_suffix_le hs) hcount)
    | cons c w'' ih =>
      intro hwa' s' hs
      rcases List.suffix_cons_iff.mp hs with rfl | hs
      · exact sub1MatchAt_none_of_lit (litImport_none_of_head _ (ws_ne_i (hwa' c (by simp))))
      · exact ih (fun x hx => hwa' x (by simp [hx])) s' hs
  intro s' hs
  rcases List.suffix_cons_iff.mp hs with rfl | hs
  · exact hfull
  rcases List.suffix_cons_iff.mp hs with rfl | hs
  · exact sub1MatchAt_none_of_lit (litImport_none_of_head _ (by decide))
  rcases List.suffix_cons_iff.mp hs with rfl | hs
  · exact sub1MatchAt_none_of_lit (litImport_none_of_head _ (by decide))
  rcases List.suffix_cons_iff.mp hs with rfl | hs
  · exact sub1MatchAt_none_of_lit (litImport_none_of_head _ (by decide))
  rcases List.suffix_cons_iff.mp hs with rfl | hs
  · exact sub1MatchAt_none_of_lit (litImport_none_of_head _ (by decide))
  rcases List.suffix_cons_iff.mp hs with rfl | hs
  · exact sub1MatchAt_none_of_lit (litImport_none_of_head _ (by decide))
  exact hrest w hwa s' hs

theorem stripImports_namedG (w0 body w1 wf mod semi : List Char) (q q2 : Char)
    (hw0 : w0 ≠ []) (hw0a : ∀ c ∈ w0, isWs c = true)
    (hbq : ∀ c ∈ body, isQuote c = false) (hbn : ∀ c ∈ body, c ≠ '\n')
    (hw1a : ∀ c ∈ w1, isWs c = true) (hw1n : ∀ c ∈ w1, c ≠ '\n')
    (hwf : wf ≠ []) (hwfa : ∀ c ∈ wf, isWs c = true)
    (hm : mod ≠ []) (hmq : ∀ c ∈ mod, isQuote c = false)
    (hq : isQuote q = true) (hq2 : isQuote q2 = true)
    (hsemi : semi = [] ∨ semi = [';']) :
    stripImports (mkNamedStmtG w0 body w1 wf mod q q2 ++ semi) = [] := by
  have hshape : mkNamedStmtG w0 body w1 wf mod q q2 ++ semi =
      'i' :: 'm' :: 'p' :: 'o' :: 'r' :: 't' ::
        (w0 ++ ((obrace :: (body ++ cbrace :: w1)) ++
          'f' :: 'r' :: 'o' :: 'm' :: (wf ++ q :: (mod ++ q2 :: semi)))) := by
    simp [mkNamedStmtG, List.append_assoc]
  have hmidq : ∀ c ∈ obrace :: (body ++ cbrace :: w1), isQuote c = false := by
    intro c hc
    rcases List.mem_cons.mp hc with rfl | hc
    · decide
    rcases List.mem_append.mp hc with hc | hc
    · exact hbq c hc
    rcases List.mem_cons.mp hc with rfl | hc
    · decide
    · exact ws_not_quote (hw1a c hc)
  have hmidn : ∀ c ∈ obrace :: (body ++ cbrace :: w1), c ≠ '\n' := by
    intro c hc
    rcases List.mem_cons.mp hc with rfl | hc
    · decide
    rcases List.mem_append.mp hc with hc | hc
    · exact hbn c hc
    rcases List.mem_cons.mp hc with rfl | hc
    · decide
    · exact hw1n c hc
  have hsd : dropSemi semi = [] := by rcases hsemi with rfl | rfl <;> rfl
  have h1 : sub1MatchAt (mkNamedStmtG w0 body w1 wf mod q q2 ++ semi) = some [] := by
    rw [hshape, sub1_strip_general w0 (obrace :: (body ++ cbrace :: w1)) wf mod q q2 semi
      hw0 hw0a hmidq hmidn hwf hwfa hm hmq hq hq2, hsd]
  have hne : mkNamedStmtG w0 body w1 wf mod q q2 ++ semi ≠ [] := by
    rw [hshape]
    simp
  unfold stripImports
  rw [stripRun_of_full_match sub1MatchAt _ h1 rfl hne]
  rfl

theorem stripImports_nsG (w0 wa wb ns wc wf mod semi : List Char) (q q2 : Char)
    (hw0 : w0 ≠ []) (hw0a : ∀ c ∈ w0, isWs c = true)
    (hwaa : ∀ c ∈ wa, isWs c = true) (hwan : ∀ c ∈ wa, c ≠ '\n')
    (hwba : ∀ c ∈ wb, isWs c = true) (hwbn : ∀ c ∈ wb, c ≠ '\n')
    (hwca : ∀ c ∈ wc, isWs c = true) (hwcn : ∀ c ∈ wc, c ≠ '\n')
    (hns : ∀ c ∈ ns, isWordChar c = true)
    (hwf : wf ≠ []) (hwfa : ∀ c ∈ wf, isWs c = true)
    (hm : mod ≠ []) (hmq : ∀ c ∈ mod, isQuote c = false)
    (hq : isQuote q = true) (hq2 : isQuote q2 = true)
    (hsemi : semi = [] ∨ semi = [';']) :
    stripImports (mkNsStmtG w0 wa wb ns wc wf mod q q2 ++ semi) = [] := by
  have hshape : mkNsStmtG w0 wa wb ns wc wf mod q q2 ++ semi =
      'i' :: 'm' :: 'p' :: 'o' :: 'r' :: 't' ::
        (w0 ++ (('*' :: (wa ++ 'a' :: 's' :: (wb ++ (ns ++ wc)))) ++
          'f' :: 'r' :: 'o' :: 'm' :: (wf ++ q :: (mod ++ q2 :: semi)))) := by
    simp [mkNsStmtG, List.append_assoc]
  have hmidq : ∀ c ∈ '*' :: (wa ++ 'a' :: 's' :: (wb ++ (ns ++ wc))), isQuote c = false := by
    intro c hc
    rcases List.mem_cons.mp hc with rfl | hc
    · decide
    rcases List.mem_append.mp hc with hc | hc
    · exact ws_not_quote (hwaa c hc)
    rcases List.mem_cons.mp hc with rfl | hc
    · decide
    rcases List.mem_cons.mp hc with rfl | hc
    · decide
    rcases List.mem_append.mp hc with hc | hc
    · exact ws_not_quote (hwba c hc)
    rcases List.mem_append.mp hc with hc | hc
    · exact word_not_quote (hns c hc)
    · exact ws_not_quote (hwca c hc)
  have hmidn : ∀ c ∈ '*' :: (wa ++ 'a' :: 's' :: (wb ++ (ns ++ wc))), c ≠ '\n' := by
    intro c hc
    rcases List.mem_cons.mp hc with rfl | hc
    · decide
    rcases List.mem_append.mp hc with hc | hc
    · exact hwan c hc
    rcases List.mem_cons.mp hc with rfl | hc
    · decide
    rcases List.mem_cons.mp hc with rfl | hc
    · decide
    rcases List.mem_append.mp hc with hc | hc
    · exact hwbn c hc
    rcases List.mem_append.mp hc with hc | hc
    · exact word_ne_newline (hns c hc)
    · exact hwcn c hc
  have hsd : dropSemi semi = [] := by rcases hsemi with rfl | rfl <;> rfl
  have h1 : sub1MatchAt (mkNsStmtG w0 wa wb ns wc wf mod q q2 ++ semi) = some [] := by
    rw [hshape, sub1_strip_general w0 ('*' :: (wa ++ 'a' :: 's' :: (wb ++ (ns ++ wc))))
      wf mod q q2 semi hw0 hw0a hmidq hmidn hwf hwfa hm hmq hq hq2, hsd]
  have hne : mkNsStmtG w0 wa wb ns wc wf mod q q2 ++ semi ≠ [] := by
    rw [hshape]
    simp
  unfold stripImports
  rw [stripRun_of_full_match sub1MatchAt _ h1 rfl hne]
  rfl

theorem stripImports_defaultG (w0 name w1 wf mod semi : List Char) (q q2 : Char)
    (hw0 : w0 ≠ []) (hw0a : ∀ c ∈ w0, isWs c = true)
    (hname : ∀ c ∈ name, isWordChar c = true)
    (hw1a : ∀ c ∈ w1, isWs c = true) (hw1n : ∀ c ∈ w1, c ≠ '\n')
    (hwf : wf ≠ []) (hwfa : ∀ c ∈ wf, isWs c = true)
    (hm : mod ≠ []) (hmq : ∀ c ∈ mod, isQuote c = false)
    (hq : isQuote q = true) (hq2 : isQuote q2 = true)
    (hsemi : semi = [] ∨ semi = [';']) :
    stripImports (mkDefaultStmtG w0 name w1 wf mod q q2 ++ semi) = [] := by
  have hshape : mkDefaultStmtG w0 name w1 wf mod q q2 ++ semi =
      'i' :: 'm' :: 'p' :: 'o' :: 'r' :: 't' ::
        (w0 ++ ((name ++ w1) ++
          'f' :: 'r' :: 'o' :: 'm' :: (wf ++ q :: (mod ++ q2 :: semi)))) := by
    simp [mkDefaultStmtG, List.append_assoc]
  have hmidq : ∀ c ∈ name ++ w1, isQuote c = false := by
    intro c hc
    rcases List.mem_append.mp hc with hc | hc
    · exact word_not_quote (hname c hc)
    · exact ws_not_quote (hw1a c hc)
  have hmidn : ∀ c ∈ name ++ w1, c ≠ '\n' := by
    intro c hc
    rcases List.mem_append.mp hc with hc | hc
    · exact word_ne_newline (hname c hc)
    · exact hw1n c hc
  have hsd : dropSemi semi = [] := by rcases hsemi with rfl | rfl <;> rfl
  have h1 : sub1MatchAt (mkDefaultStmtG w0 name w1 wf mod q q2 ++ semi) = some [] := by
    rw [hshape, sub1_strip_general w0 (name ++ w1) wf mod q q2 semi
      hw0 hw0a hmidq hmidn hwf hwfa hm hmq hq hq2, hsd]
  have hne : mkDefaultStmtG w0 name w1 wf mod q q2 ++ semi ≠ [] := by
    rw [hshape]
    simp
  unfold stripImports
  rw [stripRun_of_full_match sub1MatchAt _ h1 rfl hne]
  rfl

theorem stripImports_sideG (w0 mod semi : List Char) (q q2 : Char)
    (hw0 : w0 ≠ []) (hw0a : ∀ c ∈ w0, isWs c = true)
    (hm : mod ≠ []) (hmq : ∀ c ∈ mod, isQuote c = false)
    (hq : isQuote q = true) (hq2 : isQuote q2 = true)
    (hsemi : semi = [] ∨ semi = [';']) :
    stripImports (mkSideStmtG w0 mod q q2 ++ semi) = [] := by
  have hshape : mkSideStmtG w0 mod q q2 ++ semi =
      'i' :: 'm' :: 'p' :: 'o' :: 'r' :: 't' :: (w0 ++ q :: (mod ++ q2 :: semi)) := by
    simp [mkSideStmtG, List.append_assoc]
  have hsq : ∀ c ∈ semi, isQuote c = false := by
    rcases hsemi with rfl | rfl <;> decide
  have hsd : dropSemi semi = [] := by rcases hsemi with rfl | rfl <;> rfl
  have hnone : ∀ s', s' <:+ (mkSideStmtG w0 mod q q2 ++ semi) → sub1MatchAt s' = none := by
    rw [hshape]
    exact sub1_none_side_suffix w0 mod semi q q2 hw0 hw0a hmq hsq hq hq2
  have h2 : sub2MatchAt (mkSideStmtG w0 mod q q2 ++ semi) = some [] := by
    rw [hshape, sub2_gen w0 mod q q2 semi hw0 hw0a hm hmq hq hq2, hsd]
  have hne : mkSideStmtG w0 mod q q2 ++ semi ≠ [] := by
    rw [hshape]
    simp
  unfold stripImports
  have hid : stripRun sub1MatchAt (mkSideStmtG w0 mod q q2 ++ semi) =
      mkSideStmtG w0 mod q q2 ++ semi :=
    stripAux_id sub1MatchAt _ _ hnone
  rw [hid]
  exact stripRun_of_full_match sub2MatchAt _ h2 rfl hne

/-! ### Aliased named-import entries (split on the aliasing keyword) -/

theorem containsSeq_iff (sep l : List Char) :
    containsSeq sep l = true ↔ ∃ z, z <:+ l ∧ z ≠ [] ∧ leadsWith sep z = true := by
  induction l with
  | nil => simp [containsSeq, List.suffix_nil]
  | cons c t ih =>
    simp only [containsSeq, Bool.or_eq_true, ih]
    constructor
    · rintro (h | ⟨z, hz, hne, hl⟩)
      · exact ⟨c :: t, List.suffix_refl _, by simp, h⟩
      · exact ⟨z, hz.trans (List.suffix_cons c t), hne, hl⟩
    · rintro ⟨z, hz, hne, hl⟩
      rcases List.suffix_cons_iff.mp hz with rfl | hz
      · exact Or.inl hl
      · exact Or.inr ⟨z, hz, hne, hl⟩

theorem leadsWith_append_of_le (sep x z : List Char) (h : sep.length ≤ x.length) :
    leadsWith sep (x ++ z) = leadsWith sep x := by
  induction sep generalizing x with
  | nil => simp [leadsWith]
  | cons a as ih =>
    rcases x with _ | ⟨b, bs⟩
    · simp at h
    · simp only [List.cons_append, leadsWith, List.append_eq]
      simp only [List.length_cons] at h
      rw [ih bs (by omega)]

theorem sepAs_chars : sepAsKey = [' ', 'a', 's', ' '] := rfl

theorem sepAs_no_early (a y : List Char) (h1 : containsSeq sepAsKey a = false)
    (h2 : ([' ', 'a', 's'].isSuffixOf a) = false) :
    ∀ x₁ x₂, a = x₁ ++ x₂ → x₂ ≠ [] →
      leadsWith sepAsKey (x₂ ++ sepAsKey ++ y) = false := by
  intro x₁ x₂ heq hne
  cases hl : leadsWith sepAsKey (x₂ ++ sepAsKey ++ y)
  · rfl
  exfalso
  have hsuf : x₂ <:+ a := ⟨x₁, heq.symm⟩
  rcases (leadsWith_iff _ _).mp hl with ⟨r, hr⟩
  rw [sepAs_chars] at hr
  rcases x₂ with _ | ⟨d1, x₂⟩
  · exact hne rfl
  rcases x₂ with _ | ⟨d2, x₂⟩
  · simp only [List.cons_append, List.nil_append, List.append_assoc] at hr
    injection hr with hd1 hr
    injection hr with hd2 _
    exact absurd hd2 (by decide)
  rcases x₂ with _ | ⟨d3, x₂⟩
  · simp only [List.cons_append, List.nil_append, List.append_assoc] at hr
    injection hr with hd1 hr
    injection hr with hd2 hr
    injection hr with hd3 _
    exact absurd hd3 (by decide)
  rcases x₂ with _ | ⟨d4, x₂⟩
  · simp only [List.cons_append, List.nil_append, List.append_assoc] at hr
    injection hr with hd1 hr
    injection hr with hd2 hr
    injection hr with hd3 hr
    subst hd1; subst hd2; subst hd3
    have hsf := List.isSuffixOf_iff_suffix.mpr hsuf
    rw [h2] at hsf
    cases hsf
  · simp only [List.cons_append, List.append_assoc] at hr
    injection hr with hd1 hr
    injection hr with hd2 hr
    injection hr with hd3 hr
    injection hr with hd4 _
    subst hd1; subst hd2; subst hd3; subst hd4
    have hin : containsSeq sepAsKey a = true := by
      rw [containsSeq_iff]
      refine ⟨' ' :: 'a' :: 's' :: ' ' :: x₂, hsuf, by simp, ?_⟩
      rw [sepAs_chars]
      simp [leadsWith]
    rw [hin] at h1
    cases h1

theorem splitBefore_exact (sep x y : List Char) (hsep : sep ≠ [])
    (hno : ∀ x₁ x₂, x = x₁ ++ x₂ → x₂ ≠ [] → leadsWith sep (x₂ ++ sep ++ y) = false) :
    splitBefore sep (x ++ sep ++ y) = x := by
  induction x with
  | nil =>
    rcases sep with _ | ⟨s₀, sep'⟩
    · exact absurd rfl hsep
    · simp only [List.nil_append, List.cons_append, splitBefore]
      rw [if_pos]
      rw [leadsWith_iff]
      exact ⟨y, by simp⟩
  | cons c x ih =>
    have hfirst : leadsWith sep (c :: (x ++ (sep ++ y))) = false := by
      have := hno [] (c :: x) (by simp) (by simp)
      simpa [List.append_assoc] using this
    show splitBefore sep ((c :: x) ++ sep ++ y) = c :: x
    simp only [List.cons_append, List.append_assoc, splitBefore]
    rw [if_neg (by simp [hfirst])]
    have hih := ih (fun x₁ x₂ hx hne => hno (c :: x₁) x₂ (by simp [hx]) hne)
    simp only [List.append_assoc] at hih
    simp only [List.append_eq, List.append_assoc]
    rw [hih]

theorem dropWhile_ws_ne_nil {l : List Char} (h : l.any (fun c => !isWs c) = true) :
    l.dropWhile isWs ≠ [] := by
  intro hc
  rw [List.dropWhile_eq_nil_iff] at hc
  rcases List.any_eq_true.mp h with ⟨c, hc1, hc2⟩
  have := hc c hc1
  simp [this] at hc2

theorem trimL_append (a X : List Char) (h : a.any (fun c => !isWs c) = true) :
    trimL (a ++ X) = trimL a ++ X := by
  unfold trimL
  rw [List.dropWhile_append, if_neg]
  intro hc
  exact dropWhile_ws_ne_nil h (List.isEmpty_iff.mp hc)

theorem trimR_append (Y b : List Char) (h : b.any (fun c => !isWs c) = true) :
    trimR (Y ++ b) = Y ++ trimR b := by
  unfold trimR
  rw [List.reverse_append, List.dropWhile_append, if_neg]
  · simp [List.reverse_append]
  · intro hc
    refine dropWhile_ws_ne_nil ?_ (List.isEmpty_iff.mp hc)
    rw [List.any_reverse]
    exact h

theorem trimL_idem (a : List Char) : trimL (trimL a) = trimL a := by
  unfold trimL
  induction a with
  | nil => rfl
  | cons c t ih =>
    by_cases hc : isWs c = true
    · rw [List.dropWhile_cons, if_pos hc]
      exact ih
    · rw [List.dropWhile_cons, if_neg hc, List.dropWhile_cons, if_neg hc]

theorem trimBoth_trimL (a : List Char) : trimBoth (trimL a) = trimBoth a := by
  unfold trimBoth
  rw [trimL_idem]

theorem suffix_of_trimL (a : List Char) : trimL a <:+ a := List.dropWhile_suffix isWs

theorem containsSeq_false_of_suffix {sep x a : List Char} (hx : x <:+ a)
    (h : containsSeq sep a = false) : containsSeq sep x = false := by
  cases hc : containsSeq sep x
  · rfl
  · exfalso
    rcases (containsSeq_iff sep x).mp hc with ⟨z, hz, hne, hl⟩
    have : containsSeq sep a = true := (containsSeq_iff sep a).mpr ⟨z, hz.trans hx, hne, hl⟩
    rw [this] at h
    cases h

theorem isSuffixOf_false_of_suffix {x a s : List Char} (hx : x <:+ a)
    (h : (s.isSuffixOf a) = false) : (s.isSuffixOf x) = false := by
  cases hc : s.isSuffixOf x
  · rfl
  · exfalso
    have : s <:+ a := (List.isSuffixOf_iff_suffix.mp hc).trans hx
    rw [List.isSuffixOf_iff_suffix.mpr this] at h
    cases h

theorem processEntry_alias (a b : List Char)
    (h1 : containsSeq sepAsKey a = false)
    (h2 : ([' ', 'a', 's'].isSuffixOf a) = false)
    (h3 : a.any (fun c => !isWs c) = true)
    (h4 : b.any (fun c => !isWs c) = true) :
    processEntry (a ++ sepAsKey ++ b) = trimBoth a := by
  unfold processEntry
  have htrim : trimBoth (a ++ sepAsKey ++ b) = (trimL a ++ sepAsKey) ++ trimR b := by
    unfold trimBoth
    rw [List.append_assoc, trimL_append a _ h3, ← List.append_assoc,
      trimR_append _ b h4]
  rw [htrim]
  rw [splitBefore_exact sepAsKey (trimL a) (trimR b) (by decide)
    (sepAs_no_early (trimL a) (trimR b)
      (containsSeq_false_of_suffix (suffix_of_trimL a) h1)
      (isSuffixOf_false_of_suffix (suffix_of_trimL a) h2))]
  exact trimBoth_trimL a

/-! ### The default pattern at a named / namespaced match position -/

theorem ws0Char_eq_some {tgt : Char} {l r : List Char} (h : ws0Char tgt l = some r) :
    l.dropWhile isWs = tgt :: r := by
  unfold ws0Char at h
  rcases hd : l.dropWhile isWs with _ | ⟨c, r'⟩ <;> rw [hd] at h
  · cases h
  · change (if c = tgt then some r' else none) = some r at h
    split_ifs at h with hc
    injection h with h
    rw [hc, h]

theorem defaultMatchAt_none_of_nonword {s r1 : List Char} (hlit : litImport s = some r1)
    {c : Char} {r3 : List Char} (hdrop : r1.dropWhile isWs = c :: r3)
    (hcw : isWordChar c = false) : defaultMatchAt s = none := by
  unfold defaultMatchAt
  rw [hlit]
  simp only [Option.some_bind]
  rcases r1 with _ | ⟨d, t⟩
  · rfl
  by_cases hd : isWs d = true
  · rw [show ws1 (d :: t) = some (t.dropWhile isWs) from by simp [ws1, hd]]
    simp only [Option.some_bind]
    have ht : t.dropWhile isWs = c :: r3 := by
      rw [← hdrop, List.dropWhile_cons, if_pos hd]
    rw [ht, show word1 (c :: r3) = none from by simp [word1, hcw]]
    rfl
  · rw [show ws1 (d :: t) = none from by simp [ws1, hd]]
    rfl

/-! ### Dictionary lookup and membership -/

theorem assocLookup_mem {m : List Char} {v : List (List Char)} :
    ∀ d, assocLookup m d = some v → (m, v) ∈ d := by
  intro d
  induction d with
  | nil => intro h; cases h
  | cons p t ih =>
    intro h
    rcases p with ⟨k, w⟩
    unfold assocLookup at h
    split_ifs at h with hk
    · injection h with h
      subst hk
      subst h
      exact List.mem_cons_self _ _
    · exact List.mem_cons_of_mem _ (ih h)

theorem not_starAs_of_word {x : List Char} (hw : ∀ c ∈ x, isWordChar c = true) :
    leadsWith starAsKey x = false := by
  cases hl : leadsWith starAsKey x
  · rfl
  · exfalso
    rcases (leadsWith_iff _ _).mp hl with ⟨r, rfl⟩
    have hstar : isWordChar '*' = true := by
      refine hw '*' ?_
      rw [show starAsKey = '*' :: ' ' :: 'a' :: 's' :: ' ' :: [] from rfl]
      simp
    exact absurd hstar (by decide)

/-! ### The run statistics as a fold invariant -/

theorem runScan_foldl : ∀ (files : List (List Char)) (r : RunResults),
    (files.foldl processFile r).totalUnused =
        r.totalUnused + (files.map (fun c => (unusedOf c).length)).sum ∧
    (files.foldl processFile r).totalDuplicates =
        r.totalDuplicates + (files.map (fun c => (duplicatesOf c).length)).sum ∧
    (files.foldl processFile r).unusedEntries =
        r.unusedEntries ++ files.filterMap
          (fun c => if (unusedOf c).isEmpty then none else some (unusedOf c)) ∧
    (files.foldl processFile r).duplicateEntries =
        r.duplicateEntries ++ files.filterMap
          (fun c => if (duplicatesOf c).isEmpty then none else some (duplicatesOf c)) := by
  intro files
  induction files with
  | nil => intro r; exact ⟨by simp, by simp, by simp, by simp⟩
  | cons c t ih =>
    intro r
    rcases ih (processFile r c) with ⟨h1, h2, h3, h4⟩
    refine ⟨?_, ?_, ?_, ?_⟩
    · rw [List.foldl_cons, h1]
      simp [processFile]
      omega
    · rw [List.foldl_cons, h2]
      simp [processFile]
      omega
    · rw [List.foldl_cons, h3]
      by_cases hu : ((unusedOf c).isEmpty : Bool) = true
      · have hu' : unusedOf c = [] := List.isEmpty_iff.mp hu
        simp [processFile, hu, hu', List.filterMap_cons]
      · have hu' : ¬(unusedOf c = []) := fun hc => hu (List.isEmpty_iff.mpr hc)
        simp [processFile, hu, hu', List.filterMap_cons]
    · rw [List.foldl_cons, h4]
      by_cases hu : ((duplicatesOf c).isEmpty : Bool) = true
      · have hu' : duplicatesOf c = [] := List.isEmpty_iff.mp hu
        simp [processFile, hu, hu', List.filterMap_cons]
      · have hu' : ¬(duplicatesOf c = []) := fun hc => hu (List.isEmpty_iff.mpr hc)
        simp [processFile, hu, hu', List.filterMap_cons]

theorem filterMap_ite_length (p : List Char → Bool) (g : List Char → List (List Char)) :
    ∀ l : List (List Char),
      (l.filterMap (fun c => if p c then none else some (g c))).length =
        (l.filter (fun c => !p c)).length := by
  intro l
  induction l with
  | nil => rfl
  | cons c t ih =>
    rw [List.filterMap_cons, List.filter_cons]
    cases hc : p c
    · simp [ih]
    · simp [ih]

theorem filterMap_if_length (g : List Char → List (List Char)) :
    ∀ files : List (List Char),
      (files.filterMap (fun c => if (g c).isEmpty then none else some (g c))).length =
        (files.filter (fun c => !(g c).isEmpty)).length :=
  filterMap_ite_length (fun c => (g c).isEmpty) g

theorem filterMap_if_all_nonempty (g : List Char → List (List Char))
    (files : List (List Char)) :
    ∀ u ∈ files.filterMap (fun c => if (g c).isEmpty then none else some (g c)),
      (!u.isEmpty) = true := by
  intro u hu
  rcases List.mem_filterMap.mp hu with ⟨c, _, hc⟩
  split_ifs at hc with h
  injection hc with hc
  subst hc
  simp [h]

/-! ## Claim theorems -/

/-- Claim C9: after a scan, `total_unused_imports` equals the sum over all
processed files of that file's unused-list length, `total_duplicate_imports`
equals the sum of duplicate-list lengths, and `files_with_unused`
(respectively `files_with_duplicates`) counts exactly the files whose unused
(respectively duplicates) list is non-empty. -/
theorem claim_c9_stats_invariant (files : List (List Char)) :
    (statsOf files).totalUnused = (files.map (fun c => (unusedOf c).length)).sum ∧
    (statsOf files).totalDuplicates = (files.map (fun c => (duplicatesOf c).length)).sum ∧
    (statsOf files).filesWithUnused =
      (files.filter (fun c => !(unusedOf c).isEmpty)).length ∧
    (statsOf files).filesWithDuplicates =
      (files.filter (fun c => !(duplicatesOf c).isEmpty)).length ∧
    (statsOf files).totalFiles = files.length := by
  rcases runScan_foldl files ⟨[], [], 0, 0⟩ with ⟨h1, h2, h3, h4⟩
  refine ⟨?_, ?_, ?_, ?_, rfl⟩
  · show (runScan files).totalUnused = _
    rw [show runScan files = files.foldl processFile ⟨[], [], 0, 0⟩ from rfl, h1]
    simp
  · show (runScan files).totalDuplicates = _
    rw [show runScan files = files.foldl processFile ⟨[], [], 0, 0⟩ from rfl, h2]
    simp
  · show ((runScan files).unusedEntries.filter (fun u => !u.isEmpty)).length = _
    rw [show runScan files = files.foldl processFile ⟨[], [], 0, 0⟩ from rfl, h3]
    simp only [show (⟨[], [], 0, 0⟩ : RunResults).unusedEntries = [] from rfl,
      List.nil_append]
    rw [List.filter_eq_self.mpr (filterMap_if_all_nonempty unusedOf files)]
    exact filterMap_if_length unusedOf files
  · show (runScan files).duplicateEntries.length = _
    rw [show runScan files = files.foldl processFile ⟨[], [], 0, 0⟩ from rfl, h4]
    simp only [show (⟨[], [], 0, 0⟩ : RunResults).duplicateEntries = [] from rfl,
      List.nil_append]
    exact filterMap_if_length duplicatesOf files

/-- Claim C8: the process exits with a zero-equivalent status if and only if
the run's `total_unused_imports` is zero; the exit status is a function of
that counter alone, so duplicate findings never cause a non-zero status. -/
theorem claim_c8_exit_status (files : List (List Char)) :
    (exitCode files = 0 ↔ (statsOf files).totalUnused = 0) ∧
    (∀ g, (statsOf g).totalUnused = (statsOf files).totalUnused →
      exitCode g = exitCode files) := by
  constructor
  · unfold exitCode
    split_ifs with h
    · constructor
      · intro hc
        exact absurd hc (by decide)
      · intro hc
        omega
    · constructor
      · intro hc
        omega
      · intro hc
        rfl
  · intro g hg
    unfold exitCode
    rw [hg]

/-- Witness for C8 at concrete runs: an empty run and a run over one
side-effect-only file both exit with status 0. -/
theorem claim_c8_exit_status_witness :
    (exitCode [] = 0 ↔ (statsOf []).totalUnused = 0) ∧
    (∀ g, (statsOf g).totalUnused = (statsOf []).totalUnused →
      exitCode g = exitCode []) :=
  claim_c8_exit_status []

/-- Claim C10: if the same non-side-effect binding name appears k times in
one module's extracted list and has no whole-word occurrence in the stripped
text, `find_unused_imports` emits its description once per occurrence — the
count of the description equals the number of occurrences — and any positive
occurrence count forces exit status 1 for a run over that file. -/
theorem claim_c10_repeated_unused (c m : List Char) (items : List (List Char))
    (h : assocLookup m (extractImports c) = some items) (x : List Char)
    (hx1 : x ≠ sideEffectSentinel) (hx2 : leadsWith starAsKey x = false)
    (hs : searchWord x (stripImports c) = false) :
    (unusedOf c).count (mkDesc x m) = items.count x ∧
    (1 ≤ items.count x → exitCode [c] = 1) := by
  have hmem := assocLookup_mem _ h
  have hcount := count_findUnusedImports c (extractImports c)
    (extractImports_keys_nodup c) (extractImports_quotefree c) hmem x hx1 hx2
  rw [hs, if_neg (by simp)] at hcount
  have hcc : (unusedOf c).count (mkDesc x m) = items.count x := hcount
  refine ⟨hcc, ?_⟩
  intro hk
  have hle := List.count_le_length (mkDesc x m) (unusedOf c)
  have hstat : (statsOf [c]).totalUnused = (unusedOf c).length := by
    rcases runScan_foldl [c] ⟨[], [], 0, 0⟩ with ⟨h1, _, _, _⟩
    show (runScan [c]).totalUnused = _
    rw [show runScan [c] = [c].foldl processFile ⟨[], [], 0, 0⟩ from rfl, h1]
    simp
  have hpos : (statsOf [c]).totalUnused > 0 := by
    rw [hstat]
    omega
  unfold exitCode
  rw [if_pos hpos]

/-- Witness for C10: `import {A} from 'm'` declared twice with no other use
of `A` yields the description `A from 'm'` twice, and the run exits 1. -/
theorem claim_c10_repeated_unused_witness :
    (unusedOf ("import \x7bA\x7d from 'm'\nimport \x7bA\x7d from 'm'".toList)).count
        (mkDesc ("A".toList) ("m".toList)) =
      (["A".toList, "A".toList] : List (List Char)).count ("A".toList) ∧
    (1 ≤ (["A".toList, "A".toList] : List (List Char)).count ("A".toList) →
      exitCode ["import \x7bA\x7d from 'm'\nimport \x7bA\x7d from 'm'".toList] = 1) :=
  claim_c10_repeated_unused ("import \x7bA\x7d from 'm'\nimport \x7bA\x7d from 'm'".toList)
    ("m".toList) ["A".toList, "A".toList] (by decide) ("A".toList) (by decide) (by decide)
    (by decide)

/-- Claim C5: a binding tagged with the side-effect sentinel never appears in
the unused list of `find_unused_imports` nor in the duplicates list of
`find_duplicate_imports`, for any module whose specifier is quote-free (as
every extracted module specifier is). -/
theorem claim_c5_sentinel_excluded (content : List Char)
    (imports : List (List Char × List (List Char)))
    (hqf : ∀ p ∈ imports, ∀ ch ∈ p.1, isQuote ch = false)
    (m' : List Char) (hm' : ∀ ch ∈ m', isQuote ch = false) :
    mkDesc sideEffectSentinel m' ∉ findUnusedImports content imports ∧
    mkDesc sideEffectSentinel m' ∉ findDuplicateImports imports :=
  ⟨sentinel_not_in_unused content imports hqf m' hm',
   sentinel_not_in_duplicates imports hqf m' hm'⟩

/-- Witness for C5: a module with three recurring side-effect sentinels
produces neither unused nor duplicate descriptions for them. -/
theorem claim_c5_sentinel_excluded_witness :
    mkDesc sideEffectSentinel ("p".toList) ∉
      findUnusedImports []
        [(("p".toList), [sideEffectSentinel, sideEffectSentinel, sideEffectSentinel])] ∧
    mkDesc sideEffectSentinel ("p".toList) ∉
      findDuplicateImports
        [(("p".toList), [sideEffectSentinel, sideEffectSentinel, sideEffectSentinel])] :=
  claim_c5_sentinel_excluded []
    [(("p".toList), [sideEffectSentinel, sideEffectSentinel, sideEffectSentinel])]
    (by decide) ("p".toList) (by decide)

/-- Claim C6, amended: the default-import pattern never matches at the very
position where the named or namespaced pattern matches (the character after
`import` and its whitespace is `{` or `*`, which `(\w+)` rejects); a
spurious default binding can still arise from text nested inside a named
import's braces, as the counterexample shows. -/
theorem claim_c6_no_default_at_match (s : List Char)
    (h : (namedMatchAt s).isSome = true ∨ (nsMatchAt s).isSome = true) :
    defaultMatchAt s = none := by
  rcases h with h | h
  · rcases Option.isSome_iff_exists.mp h with ⟨v, hv⟩
    unfold namedMatchAt at hv
    rcases Option.bind_eq_some.mp hv with ⟨r1, hlit, hv⟩
    rcases Option.bind_eq_some.mp hv with ⟨r3, hbr, _⟩
    exact defaultMatchAt_none_of_nonword hlit (ws0Char_eq_some hbr) (by decide)
  · rcases Option.isSome_iff_exists.mp h with ⟨v, hv⟩
    unfold nsMatchAt at hv
    rcases Option.bind_eq_some.mp hv with ⟨r1, hlit, hv⟩
    rcases Option.bind_eq_some.mp hv with ⟨r3, hbr, _⟩
    exact defaultMatchAt_none_of_nonword hlit (ws0Char_eq_some hbr) (by decide)

/-- Counterexample to C6 as stated: the single statement
`import { import B from 'x' } from 'm'` matches the named shape as a whole,
yet the default pattern also matches inside its braces and contributes the
spurious extra binding `B` for module `x`. -/
theorem claim_c6_counterexample :
    (namedMatchAt ("import \x7b import B from 'x' \x7d from 'm'".toList)).isSome = true ∧
    assocLookup ("x".toList)
      (extractImports ("import \x7b import B from 'x' \x7d from 'm'".toList)) =
      some ["B".toList] := by
  decide

/-- Witness for C6 at a concrete named statement. -/
theorem claim_c6_no_default_at_match_witness :
    defaultMatchAt ("import \x7bA\x7d from 'm'".toList) = none :=
  claim_c6_no_default_at_match ("import \x7bA\x7d from 'm'".toList) (Or.inl (by decide))

/-- Claim C7: for a named-import entry `a as b` — the pre-alias name `a`
free of further aliasing keywords and not ending in a dangling ` as`, both
names containing a non-blank character and no comma — the entry pipeline of
`extract_imports` retains exactly the original pre-alias name trimmed of
whitespace and discards the alias: the entry list of such a group is the
one-element list holding the trimmed pre-alias name. -/
theorem claim_c7_alias_pre_name (a b : List Char)
    (h1 : containsSeq sepAsKey a = false)
    (h2 : ([' ', 'a', 's'].isSuffixOf a) = false)
    (h3 : a.any (fun c => !isWs c) = true)
    (h4 : b.any (fun c => !isWs c) = true)
    (h5 : ∀ c ∈ a, c ≠ ',') (h6 : ∀ c ∈ b, c ≠ ',') :
    processEntry (a ++ sepAsKey ++ b) = trimBoth a ∧
    parseNamedItems (a ++ sepAsKey ++ b) = [trimBoth a] := by
  have hmain := processEntry_alias a b h1 h2 h3 h4
  refine ⟨hmain, ?_⟩
  unfold parseNamedItems
  have hnocomma : ∀ c ∈ a ++ sepAsKey ++ b, c ≠ ',' := by
    intro c hc
    rcases List.mem_append.mp hc with hc | hc
    · rcases List.mem_append.mp hc with hc | hc
      · exact h5 c hc
      · rw [sepAs_chars] at hc
        simp only [List.mem_cons] at hc
        rcases hc with hc | hc | hc | hc
        · subst hc; decide
        · subst hc; decide
        · subst hc; decide
        · simp at hc
          subst hc
          decide
    · exact h6 c hc
  have hsingle : ∀ (e : List Char), (∀ c ∈ e, c ≠ ',') → splitComma e = [e] := by
    intro e
    induction e with
    | nil => intro _; rfl
    | cons c t ih =>
      intro hno
      unfold splitComma
      rw [if_neg (hno c (by simp))]
      rw [ih (fun d hd => hno d (by simp [hd]))]
  rw [hsingle _ hnocomma, List.map_cons, List.map_nil, hmain]

/-- Witness for C7: the entry `A as B` keeps exactly `A`. -/
theorem claim_c7_alias_pre_name_witness :
    processEntry ("A".toList ++ sepAsKey ++ "B".toList) = trimBoth ("A".toList) ∧
    parseNamedItems ("A".toList ++ sepAsKey ++ "B".toList) = [trimBoth ("A".toList)] :=
  claim_c7_alias_pre_name ("A".toList) ("B".toList) (by decide) (by decide) (by decide)
    (by decide) (by decide) (by decide)

/-- Claim C3: for a module's extracted binding list, a non-sentinel binding
text occurring k times yields exactly k − 1 duplicate descriptions for that
(module, text) pair (`count x − 1` in general, which is 0 both for absent
texts and for a single occurrence), and every prefix of the walk has already
produced exactly (occurrences so far) − 1 of them, so the first occurrence
is never flagged; the count depends only on that module's own list, so the
same text under a different module specifier is never reported for this
pair.  The two hypotheses on `imports` — pairwise-distinct keys and
quote-free module specifiers — are the representation invariants of every
extracted `ModuleImportSet`. -/
theorem claim_c3_duplicate_count (imports : List (List Char × List (List Char)))
    (hnd : (imports.map Prod.fst).Nodup)
    (hqf : ∀ p ∈ imports, ∀ ch ∈ p.1, isQuote ch = false)
    (m : List Char) (items : List (List Char)) (hmem : (m, items) ∈ imports)
    (x : List Char) (hx : x ≠ sideEffectSentinel) :
    (findDuplicateImports imports).count (mkDesc x m) = items.count x - 1 ∧
    (∀ n, (dupWalk m [] (items.take n)).count (mkDesc x m) =
      (items.take n).count x - 1) := by
  refine ⟨count_findDuplicateImports imports hnd hqf hmem x hx, ?_⟩
  intro n
  rw [count_dupWalk m x hx (items.take n) [], if_neg (List.not_mem_nil x)]

/-- Witness for C3: `A` listed three times under `m` and once under `n`
yields exactly two duplicate descriptions `A from 'm'`. -/
theorem claim_c3_duplicate_count_witness :
    (findDuplicateImports [("m".toList, ["A".toList, "A".toList, "A".toList]),
        ("n".toList, ["A".toList])]).count (mkDesc ("A".toList) ("m".toList)) =
      (["A".toList, "A".toList, "A".toList] : List (List Char)).count ("A".toList) - 1 ∧
    (∀ n, (dupWalk ("m".toList) []
        ((["A".toList, "A".toList, "A".toList] : List (List Char)).take n)).count
          (mkDesc ("A".toList) ("m".toList)) =
      ((["A".toList, "A".toList, "A".toList] : List (List Char)).take n).count
        ("A".toList) - 1) :=
  claim_c3_duplicate_count
    [("m".toList, ["A".toList, "A".toList, "A".toList]), ("n".toList, ["A".toList])]
    (by decide) (by decide) ("m".toList) ["A".toList, "A".toList, "A".toList]
    (by decide) ("A".toList) (by decide)

/-- Claim C4, amended: for an extracted binding name made of identifier
characters only — and distinct from the `__side_effect__` sentinel, which
the walk skips unconditionally — the binding is classified as used (its
description is absent from the unused list) exactly when the name occurs in
the usage-search text as a whole word bounded by non-identifier characters
or text edges.  The hypotheses on `imports` are the representation
invariants of every extracted `ModuleImportSet`. -/
theorem claim_c4_whole_word (content : List Char)
    (imports : List (List Char × List (List Char)))
    (hnd : (imports.map Prod.fst).Nodup)
    (hqf : ∀ p ∈ imports, ∀ ch ∈ p.1, isQuote ch = false)
    (m : List Char) (items : List (List Char)) (hmem : (m, items) ∈ imports)
    (x : List Char) (hx1 : x ≠ sideEffectSentinel) (hx2 : x ≠ [])
    (hx3 : ∀ ch ∈ x, isWordChar ch = true) (hxmem : x ∈ items) :
    mkDesc x m ∉ findUnusedImports content imports ↔
      occursWholeWord x (stripImports content) := by
  have hsa : leadsWith starAsKey x = false := not_starAs_of_word hx3
  have hcount := count_findUnusedImports content imports hnd hqf hmem x hx1 hsa
  have hiff := searchWord_iff_occurs x hx2 hx3 (stripImports content)
  constructor
  · intro hnot
    rw [← hiff]
    cases hsw : searchWord x (stripImports content)
    · exfalso
      rw [hsw, if_neg (by simp)] at hcount
      have hpos : 0 < items.count x := List.count_pos_iff.mpr hxmem
      have hout : 0 < (findUnusedImports content imports).count (mkDesc x m) := by omega
      exact hnot (List.count_pos_iff.mp hout)
    · rfl
  · intro hocc
    have hsw : searchWord x (stripImports content) = true := hiff.mpr hocc
    rw [hsw, if_pos rfl] at hcount
    exact List.count_eq_zero.mp hcount

/-- Counterexample to C4 as stated: the literal binding `__side_effect__`
extracted from `import { __side_effect__ } from 'm'` contains no regex
metacharacter, is classified as used (it is never reported unused), yet has
no whole-word occurrence in the stripped text — the claim's equivalence
fails without excluding the sentinel name. -/
theorem claim_c4_counterexample :
    mkDesc sideEffectSentinel ("m".toList) ∉
      findUnusedImports ("import \x7b __side_effect__ \x7d from 'm'".toList)
        (extractImports ("import \x7b __side_effect__ \x7d from 'm'".toList)) ∧
    ¬ occursWholeWord sideEffectSentinel
      (stripImports ("import \x7b __side_effect__ \x7d from 'm'".toList)) ∧
    extractImports ("import \x7b __side_effect__ \x7d from 'm'".toList) =
      [("m".toList, [sideEffectSentinel])] := by
  refine ⟨by decide, ?_, by decide⟩
  intro hocc
  have hsw := (searchWord_iff_occurs sideEffectSentinel (by decide) (by decide)
    (stripImports ("import \x7b __side_effect__ \x7d from 'm'".toList))).mpr hocc
  exact absurd hsw (by decide)

/-- Witness for C4 at a concrete file: `A` imported from `m` and used, so
its description is absent from the unused list iff `A` occurs whole-word in
the stripped text (which it does). -/
theorem claim_c4_whole_word_witness :
    mkDesc ("A".toList) ("m".toList) ∉
      findUnusedImports ("import \x7bA\x7d from 'm'\nA()".toList)
        (extractImports ("import \x7bA\x7d from 'm'\nA()".toList)) ↔
      occursWholeWord ("A".toList)
        (stripImports ("import \x7bA\x7d from 'm'\nA()".toList)) :=
  claim_c4_whole_word ("import \x7bA\x7d from 'm'\nA()".toList)
    (extractImports ("import \x7bA\x7d from 'm'\nA()".toList))
    (extractImports_keys_nodup ("import \x7bA\x7d from 'm'\nA()".toList))
    (extractImports_quotefree ("import \x7bA\x7d from 'm'\nA()".toList))
    ("m".toList) ["A".toList] (by decide) ("A".toList) (by decide) (by decide)
    (by decide) (by decide)

/-- Counterexample to C2 as stated: the multiline named import
`import {\nA} from 'm'` is a declaration the extractor recognizes (it
yields the binding `A` for `m`), yet the usage-search text removes nothing
— the first stripping pattern's lazy middle cannot cross the newline — so
the statement survives in the stripped text and counts as a use of its own
binding: `A` is not reported unused even though the file has no other text. -/
theorem claim_c2_counterexample :
    stripImports ("import \x7b\nA\x7d from 'm'".toList) =
      "import \x7b\nA\x7d from 'm'".toList ∧
    extractImports ("import \x7b\nA\x7d from 'm'".toList) =
      [("m".toList, ["A".toList])] ∧
    findUnusedImports ("import \x7b\nA\x7d from 'm'".toList)
      (extractImports ("import \x7b\nA\x7d from 'm'".toList)) = [] := by
  refine ⟨by decide, by decide, by decide⟩

/-- Claim C2, amended: the usage-search text computed inside
`find_unused_imports` removes every import declaration that satisfies
the spacing its stripping patterns require — at least one whitespace
character after the `import` keyword, at least one whitespace character
after the `from` keyword where a from-clause is present, and the text
between them on one line with no quote character — in all four forms
alike (named, namespaced, default, and bare side-effect), with arbitrary
whitespace runs in every other slot, either quote style around the
module specifier, and an optional trailing semicolon: such a declaration
standing as the file text strips to the empty usage-search text, so none
of its bindings can be counted as used solely because its name occurs in
that same import statement.  Declarations the extractor accepts without
that spacing (no whitespace after `import`, or none after `from` in the
named form) or with a multi-line brace group are NOT removed and do
count as uses of their own bindings; the last two conjuncts check this
on the extracted-but-unstripped statement with no whitespace after the
keyword. -/
theorem claim_c2_single_line_strip
    (w0 w1 wa wb wc wf : List Char) (body name ns mod semi : List Char) (q q2 : Char)
    (hw0 : w0 ≠ []) (hw0a : ∀ c ∈ w0, isWs c = true)
    (hw1a : ∀ c ∈ w1, isWs c = true) (hw1n : ∀ c ∈ w1, c ≠ '\n')
    (hwaa : ∀ c ∈ wa, isWs c = true) (hwan : ∀ c ∈ wa, c ≠ '\n')
    (hwba : ∀ c ∈ wb, isWs c = true) (hwbn : ∀ c ∈ wb, c ≠ '\n')
    (hwca : ∀ c ∈ wc, isWs c = true) (hwcn : ∀ c ∈ wc, c ≠ '\n')
    (hwf : wf ≠ []) (hwfa : ∀ c ∈ wf, isWs c = true)
    (hbq : ∀ c ∈ body, isQuote c = false) (hbn : ∀ c ∈ body, c ≠ '\n')
    (hname : ∀ c ∈ name, isWordChar c = true)
    (hns : ∀ c ∈ ns, isWordChar c = true)
    (hm : mod ≠ []) (hmq : ∀ c ∈ mod, isQuote c = false)
    (hq : isQuote q = true) (hq2 : isQuote q2 = true)
    (hsemi : semi = [] ∨ semi = [';']) :
    stripImports (mkNamedStmtG w0 body w1 wf mod q q2 ++ semi) = [] ∧
    stripImports (mkNsStmtG w0 wa wb ns wc wf mod q q2 ++ semi) = [] ∧
    stripImports (mkDefaultStmtG w0 name w1 wf mod q q2 ++ semi) = [] ∧
    stripImports (mkSideStmtG w0 mod q q2 ++ semi) = [] ∧
    stripImports ("import\x7bA\x7d from 'm'".toList) =
      "import\x7bA\x7d from 'm'".toList ∧
    extractImports ("import\x7bA\x7d from 'm'".toList) =
      [("m".toList, ["A".toList])] :=
  ⟨stripImports_namedG w0 body w1 wf mod semi q q2 hw0 hw0a hbq hbn hw1a hw1n hwf hwfa
      hm hmq hq hq2 hsemi,
   stripImports_nsG w0 wa wb ns wc wf mod semi q q2 hw0 hw0a hwaa hwan hwba hwbn hwca
      hwcn hns hwf hwfa hm hmq hq hq2 hsemi,
   stripImports_defaultG w0 name w1 wf mod semi q q2 hw0 hw0a hname hw1a hw1n hwf hwfa
      hm hmq hq hq2 hsemi,
   stripImports_sideG w0 mod semi q q2 hw0 hw0a hm hmq hq hq2 hsemi,
   by decide, by decide⟩

/-- Witness for C2 amended at concrete statements: all four shapes, with
single-space runs, single quotes and a trailing semicolon, strip to the
empty text. -/
theorem claim_c2_single_line_strip_witness :
    stripImports (mkNamedStmtG [' '] (" A, B as C ".toList) [' '] [' '] ("m".toList)
      squote squote ++ [';']) = [] ∧
    stripImports (mkNsStmtG [' '] [' '] [' '] ("NS".toList) [' '] [' '] ("m".toList)
      squote squote ++ [';']) = [] ∧
    stripImports (mkDefaultStmtG [' '] ("X".toList) [' '] [' '] ("m".toList)
      squote squote ++ [';']) = [] ∧
    stripImports (mkSideStmtG [' '] ("m".toList) squote squote ++ [';']) = [] ∧
    stripImports ("import\x7bA\x7d from 'm'".toList) =
      "import\x7bA\x7d from 'm'".toList ∧
    extractImports ("import\x7bA\x7d from 'm'".toList) =
      [("m".toList, ["A".toList])] :=
  claim_c2_single_line_strip [' '] [' '] [' '] [' '] [' '] [' ']
    (" A, B as C ".toList) ("X".toList) ("NS".toList) ("m".toList) [';'] squote squote
    (by decide) (by decide) (by decide) (by decide) (by decide) (by decide)
    (by decide) (by decide) (by decide) (by decide) (by decide) (by decide)
    (by decide) (by decide) (by decide) (by decide) (by decide) (by decide)
    (by decide) (by decide) (Or.inr rfl)

/-- Counterexample to C1 as stated: in the file
`import X from 'm'` ++ newline ++ `import \x7bA\x7d from 'm'` the default
statement precedes the named statement in the file text, yet the extracted
binding list for `m` is `[A, X]` — the named-pattern phase runs first and
appends all its bindings before any default binding, so bindings do NOT
merge in declaration order. -/
theorem claim_c1_counterexample :
    ("import X from 'm'\nimport \x7bA\x7d from 'm'".toList =
      "import X from 'm'\n".toList ++ "import \x7bA\x7d from 'm'".toList) ∧
    extractImports ("import X from 'm'\nimport \x7bA\x7d from 'm'".toList) =
      [("m".toList, ["A".toList, "X".toList])] := by
  refine ⟨by decide, by decide⟩

/-- Claim C1, amended: for every file text and module specifier, the
extracted binding list of that module is the concatenation, in PATTERN
order — all named-phase bindings first, then namespaced, then default,
then side-effect — of the bindings each phase contributes for that module;
within one phase the bindings follow the phase scan order (textual
position), but across phases the file declaration order is not preserved. -/
theorem claim_c1_phase_order (content : List Char) (m : List Char)
    (l : List (List Char)) (h : assocLookup m (extractImports content) = some l) :
    l = phaseContrib (namedPairs content) m ++ phaseContrib (nsPairs content) m ++
        phaseContrib (defaultPairs content) m ++ phaseContrib (sidePairs content) m := by
  have key : (assocLookup m (extractImports content)).getD [] =
      phaseContrib (namedPairs content) m ++ phaseContrib (nsPairs content) m ++
        phaseContrib (defaultPairs content) m ++ phaseContrib (sidePairs content) m := by
    unfold extractImports
    rw [lookup_foldExtend, lookup_foldExtend, lookup_foldExtend, lookup_foldExtend]
    simp [assocLookup, List.append_assoc]
  rw [h] at key
  simpa using key

/-- Witness for C1 amended at the counterexample file: module m binding
list [A, X] equals the four-phase concatenation. -/
theorem claim_c1_phase_order_witness :
    (["A".toList, "X".toList] : List (List Char)) =
      phaseContrib (namedPairs ("import X from \x27m\x27\nimport \x7bA\x7d from \x27m\x27".toList)) ("m".toList) ++
      phaseContrib (nsPairs ("import X from \x27m\x27\nimport \x7bA\x7d from \x27m\x27".toList)) ("m".toList) ++
      phaseContrib (defaultPairs ("import X from \x27m\x27\nimport \x7bA\x7d from \x27m\x27".toList)) ("m".toList) ++
      phaseContrib (sidePairs ("import X from \x27m\x27\nimport \x7bA\x7d from \x27m\x27".toList)) ("m".toList) :=
  claim_c1_phase_order ("import X from \x27m\x27\nimport \x7bA\x7d from \x27m\x27".toList)
    ("m".toList) (["A".toList, "X".toList]) (by decide)
